import Mathlib

/-!
Verification of the Huffman-tree builder in `src/huffman.rs`.

The Rust code has two components:

* `CharWeightMap::build` counts, for each distinct character of the input
  string, its number of occurrences (a `HashMap<char, u64>`).
* `HuffmanTree::build` allocates a flat pool (`Vec<Rc<RefCell<HuffmanTree>>>`)
  of `2 * n - 1` slots, fills the first `n` slots with leaves taken from the
  table's iteration order, and then, for each slot `i` in `n..2*n-1`, selects
  twice (via `find_min`) an unattached minimum-weight node among slots
  `[0, i)`, marks it consumed by setting its `parent` link, and stores the
  merged node (weight = sum, left = first pick, right = second pick) in
  slot `i`.  The last slot is the root.

The embedding below models the pool as a `List HuffmanTree` and `Rc` handles
as slot indices (every `Rc` in the Rust pool is a distinct allocation, so a
handle is exactly its slot).  Machine integers: `usize`/`u64` are `Nat`;
the `u64` addition of weights is taken modulo `2 ^ 64` (release-mode
wrapping; debug mode would panic, and every claim below either bounds the
total weight so that no overflow occurs or is stated about the wrap
explicitly).  Fallible steps return `Option`: `none` models a panic — the
`usize` underflow `2 * 0 - 1` for an empty table, or a failed `unwrap` on
`find_min`.
-/

/-- Largest value of the Rust `u64` type (`Weight::MAX` in `find_min`). -/
def U64MAX : Nat := 2 ^ 64 - 1

/-- Modulus of `u64` arithmetic. -/
def U64MOD : Nat := 2 ^ 64

/-- One node of the pool (the Rust `HuffmanTree` struct).  Links hold slot
indices of the arena rather than `Rc` handles. -/
structure HuffmanTree where
  value : Option Char
  weight : Nat
  parent : Option Nat
  left : Option Nat
  right : Option Nat
  deriving DecidableEq, Repr

/-- `HuffmanTree::new()`. -/
def HuffmanTree.new : HuffmanTree :=
  { value := none, weight := 0, parent := none, left := none, right := none }

/-- Read slot `j` of the pool (always in range where used). -/
def nodeAt (p : List HuffmanTree) (j : Nat) : HuffmanTree :=
  p.getD j HuffmanTree.new

/-- Scanning loop of `HuffmanTree::find_min`: walk the slice keeping the
current strict minimum (`mn`, initially `u64::MAX`) and the index of the
node that last improved it. -/
def findMinGo : List HuffmanTree → Nat → Nat → Option Nat → Option Nat
  | [], _, _, result => result
  | t :: rest, idx, mn, result =>
    if t.parent = none ∧ t.weight < mn then
      findMinGo rest (idx + 1) t.weight (some idx)
    else
      findMinGo rest (idx + 1) mn result

/-- `HuffmanTree::find_min` on a slice `&vec[..i]`; returns the slot index of
the chosen node (the identity of the returned `Rc`). -/
def HuffmanTree.find_min (slice : List HuffmanTree) : Option Nat :=
  findMinGo slice 0 U64MAX none

/-- Mark slot `j` as consumed by setting its parent link to slot `i`. -/
def setParent (p : List HuffmanTree) (j i : Nat) : List HuffmanTree :=
  p.set j { nodeAt p j with parent := some i }

/-- One iteration of the merge loop of `HuffmanTree::build` at slot `i`:
pick `m1`, mark it, pick `m2`, mark it, then fill slot `i` with the merged
node.  `none` models a panicking `unwrap` on a failed `find_min`. -/
def mergeStep (p : List HuffmanTree) (i : Nat) : Option (List HuffmanTree) :=
  match HuffmanTree.find_min (p.take i) with
  | none => none
  | some j1 =>
    let p1 := setParent p j1 i
    match HuffmanTree.find_min (p1.take i) with
    | none => none
    | some j2 =>
      let p2 := setParent p1 j2 i
      let w1 := (nodeAt p2 j1).weight
      let w2 := (nodeAt p2 j2).weight
      let w := (w1 + w2) % U64MOD
      some (p2.set i
        { nodeAt p2 i with weight := w, left := some j1, right := some j2 })

/-- The merge loop `for index in n..total`, with an explicit iteration
count (`steps = total - i` remaining iterations). -/
def buildLoop : List HuffmanTree → Nat → Nat → Option (List HuffmanTree)
  | p, _, 0 => some p
  | p, i, steps + 1 =>
    match mergeStep p i with
    | none => none
    | some p1 => buildLoop p1 (i + 1) steps

/-- Leaf initialisation: `char_weight.iter().enumerate()` writing value and
weight of slot `idx` for each table entry, in table iteration order. -/
def initLeaves : List HuffmanTree → Nat → List (Char × Nat) → List HuffmanTree
  | p, _, [] => p
  | p, idx, cw :: rest =>
    initLeaves (p.set idx { nodeAt p idx with value := some cw.1, weight := cw.2 })
      (idx + 1) rest

/-- The freshly allocated pool (`(0..total).map(|_| new)`) with leaves
written into the first `n` slots. -/
def pool0 (table : List (Char × Nat)) : List HuffmanTree :=
  initLeaves (List.replicate (2 * table.length - 1) HuffmanTree.new) 0 table

/-- `HuffmanTree::build`.  The table is the `(char, weight)` iteration
sequence of the `CharWeightMap` (a `HashMap`, whose iteration order is
arbitrary; theorems therefore quantify over the sequence).  The result is
the final arena together with the root slot `total - 1` (the `Rc` returned
by `vec.last().unwrap().clone()`).  `none` models a panic: for `n = 0` the
`usize` subtraction `2 * n - 1` underflows (debug: overflow panic; release:
an absurd `usize::MAX` allocation) — there is no error return in the code —
and inside the loop a failed `find_min` makes `.unwrap()` panic. -/
def HuffmanTree.build (table : List (Char × Nat)) : Option (List HuffmanTree × Nat) :=
  let n := table.length
  if n = 0 then none
  else
    let total := 2 * n - 1
    match buildLoop (pool0 table) n (total - n) with
    | none => none
    | some p => some (p, total - 1)

/-- Pool state after the merge loop has run up to (excluding) slot `i`.
`loopTo table table.length` is the initial pool, `loopTo table (2*n-1)` the
final one. -/
def loopTo (table : List (Char × Nat)) (i : Nat) : Option (List HuffmanTree) :=
  buildLoop (pool0 table) table.length (i - table.length)

/-- Distinct characters of the input in first-occurrence order.  A concrete
representative of the (arbitrary) `HashMap` iteration order. -/
def keysOf : List Char → List Char
  | [] => []
  | c :: rest => c :: (keysOf rest).filter (fun x => x ≠ c)

/-- `CharWeightMap::build`: each distinct character of the input mapped to
its occurrence count (`map.entry(char).or_insert(0) += 1`).  The entry set
is exactly this; the list order stands for one possible iteration order. -/
def CharWeightMap.build (input : List Char) : List (Char × Nat) :=
  (keysOf input).map (fun c => (c, input.count c))

/-- A `(char, weight)` sequence is a faithful iteration of the
`CharWeightMap` of `input`: keys are distinct, they are exactly the
characters occurring in `input`, and each weight is the exact occurrence
count of its key.  `HashMap` iteration order is arbitrary, so theorems
about `HuffmanTree::build ∘ CharWeightMap::build` quantify over all
sequences satisfying this. -/
def IsCWM (input : List Char) (table : List (Char × Nat)) : Prop :=
  (table.map Prod.fst).Nodup ∧
  (∀ c : Char, c ∈ table.map Prod.fst ↔ c ∈ input) ∧
  (∀ cw ∈ table, cw.2 = input.count cw.1)

instance (input : List Char) (table : List (Char × Nat)) :
    Decidable (IsCWM input table) :=
  decidable_of_iff
    ((table.map Prod.fst).Nodup ∧
      ((∀ c ∈ table.map Prod.fst, c ∈ input) ∧
        (∀ c ∈ input, c ∈ table.map Prod.fst)) ∧
      (∀ cw ∈ table, cw.2 = input.count cw.1))
    (by
      constructor
      · rintro ⟨h1, ⟨h2a, h2b⟩, h3⟩
        exact ⟨h1, fun c => ⟨fun hc => h2a c hc, fun hc => h2b c hc⟩, h3⟩
      · rintro ⟨h1, h2, h3⟩
        exact ⟨h1, ⟨fun c hc => (h2 c).1 hc, fun c hc => (h2 c).2 hc⟩, h3⟩)

/-- The tree a caller observes through the returned root handle: character
(for leaves), stored weight, and the two subtrees.  Parent links are
selection-time bookkeeping and not part of the observable tree. -/
inductive CTree where
  | lf : Option Char → Nat → CTree
  | nd : Nat → CTree → CTree → CTree
  deriving DecidableEq, Repr

/-- Extract the observable tree rooted at slot `j` (fuel-bounded recursion;
under the builder's invariant children have strictly smaller slot numbers,
so fuel `j + 1` is enough). -/
def ctreeOf : Nat → List HuffmanTree → Nat → CTree
  | 0, p, j => CTree.lf (nodeAt p j).value (nodeAt p j).weight
  | fuel + 1, p, j =>
    match (nodeAt p j).left, (nodeAt p j).right with
    | some a, some b =>
      CTree.nd (nodeAt p j).weight (ctreeOf fuel p a) (ctreeOf fuel p b)
    | _, _ => CTree.lf (nodeAt p j).value (nodeAt p j).weight

/-- Observable tree returned by `HuffmanTree::build` (root handle plus
everything reachable through `left`/`right`), or `none` on panic. -/
def builtTree (table : List (Char × Nat)) : Option CTree :=
  (HuffmanTree.build table).map (fun pr => ctreeOf (2 * table.length) pr.1 pr.2)

/-- Structural-recursion companion of `findMinGo`: returns (relative index,
weight) of the node the scan settles on when started with bound `mn` —
the first node attaining the minimum weight among unattached nodes of
weight below `mn`. -/
def findMinB : List HuffmanTree → Nat → Option (Nat × Nat)
  | [], _ => none
  | t :: rest, mn =>
    if t.parent = none ∧ t.weight < mn then
      match findMinB rest t.weight with
      | some ow => some (ow.1 + 1, ow.2)
      | none => some (0, t.weight)
    else
      match findMinB rest mn with
      | some ow => some (ow.1 + 1, ow.2)
      | none => none

/-- Slots in `[0, i)` that are unattached (no parent assigned, i.e. not yet
consumed by any merge) — the candidates `find_min` can return. -/
def unattList (p : List HuffmanTree) (i : Nat) : List Nat :=
  (List.range i).filter (fun j => decide ((nodeAt p j).parent = none))

/-- Total weight of a frequency table. -/
def totalW (table : List (Char × Nat)) : Nat :=
  (table.map Prod.snd).sum

/-- State invariant of the merge loop of `HuffmanTree::build`, holding at
the start of the iteration for slot `i` (so for `i = n` it describes the
freshly initialised pool, and for `i = 2n - 1` the finished one). -/
structure LoopInv (table : List (Char × Nat)) (i : Nat) (p : List HuffmanTree) : Prop where
  len : p.length = 2 * table.length - 1
  lo : table.length ≤ i
  hi : i ≤ 2 * table.length - 1
  leaf : ∀ j, (hj : j < table.length) →
    (nodeAt p j).value = some (table.get ⟨j, hj⟩).1 ∧
    (nodeAt p j).weight = (table.get ⟨j, hj⟩).2 ∧
    (nodeAt p j).left = none ∧ (nodeAt p j).right = none
  internal : ∀ j, table.length ≤ j → j < i →
    (nodeAt p j).value = none ∧
    ∃ a b, (nodeAt p j).left = some a ∧ (nodeAt p j).right = some b ∧
      a < j ∧ b < j ∧ a ≠ b ∧
      (nodeAt p j).weight = (nodeAt p a).weight + (nodeAt p b).weight ∧
      (nodeAt p a).weight ≤ (nodeAt p b).weight
  fresh : ∀ j, i ≤ j → j < 2 * table.length - 1 → nodeAt p j = HuffmanTree.new
  cnt : (unattList p i).length = 2 * table.length - i
  wsum : ((unattList p i).map (fun j => (nodeAt p j).weight)).sum = totalW table
  parent_lt : ∀ j k, (nodeAt p j).parent = some k → j < k ∧ k < i

/-- Explicit form of the pool produced by a successful `mergeStep` at slot
`i`, with first pick `j1` and second pick `j2` (the `%` already resolved:
the step lemma shows the weight addition cannot wrap). -/
def mergedPool (p : List HuffmanTree) (i j1 j2 : Nat) : List HuffmanTree :=
  (setParent (setParent p j1 i) j2 i).set i
    { nodeAt p i with
      weight := (nodeAt p j1).weight + (nodeAt p j2).weight,
      left := some j1, right := some j2 }

/-- Full binary trees over leaf weights — the shape of a Huffman merge
tree, abstracting characters and slot bookkeeping away.  Every node of a
`BT` has zero or two children, as in the pool (`left`/`right` are set
together). -/
inductive BT where
  | lf : Nat → BT
  | nd : BT → BT → BT
  deriving DecidableEq, Repr

/-- Total leaf weight of a tree. -/
def BT.wt : BT → Nat
  | .lf w => w
  | .nd l r => l.wt + r.wt

/-- Cost of a tree: the sum, over internal nodes, of the total leaf weight
below that node.  Equal to the weighted sum of leaf depths (`BT.wsd`). -/
def BT.cost : BT → Nat
  | .lf _ => 0
  | .nd l r => l.cost + r.cost + l.wt + r.wt

/-- Multiset of leaf weights. -/
def BT.leaves : BT → Multiset Nat
  | .lf w => {w}
  | .nd l r => l.leaves + r.leaves

/-- Number of nodes (leaves and internal) of a tree. -/
def BT.size : BT → Nat
  | .lf _ => 1
  | .nd l r => l.size + r.size + 1

/-- Number of leaves of a tree. -/
def BT.leafCount : BT → Nat
  | .lf _ => 1
  | .nd l r => l.leafCount + r.leafCount

/-- Number of internal nodes of a tree. -/
def BT.ndCount : BT → Nat
  | .lf _ => 0
  | .nd l r => l.ndCount + r.ndCount + 1

/-- Weighted sum of leaf depths, accumulating the root-to-leaf edge count. -/
def wsdAux : BT → Nat → Nat
  | .lf w, d => w * d
  | .nd l r, d => wsdAux l (d + 1) + wsdAux r (d + 1)

/-- Weighted sum of leaf depths (weight times root-to-leaf edge count,
summed over all leaves). -/
def BT.wsd (t : BT) : Nat := wsdAux t 0

/-- Weight-shape of the tree hanging at slot `j` of the pool (fuel-bounded;
children always have smaller slot numbers, so fuel exceeding `j` is
enough). -/
def toBT : Nat → List HuffmanTree → Nat → BT
  | 0, p, j => .lf (nodeAt p j).weight
  | fuel + 1, p, j =>
    match (nodeAt p j).left, (nodeAt p j).right with
    | some a, some b => .nd (toBT fuel p a) (toBT fuel p b)
    | _, _ => .lf (nodeAt p j).weight

/-- The forest of trees hanging at the unattached slots at stage `i` — the
working set of the algorithm, viewed abstractly. -/
def forestAt (p : List HuffmanTree) (i : Nat) : Multiset BT :=
  ((unattList p i).map (fun j => toBT i p j) : List BT)

/-- One abstract Huffman merge: remove two minimum-weight trees (`t1` the
minimum of the whole forest, `t2` the minimum of the rest) and insert
their combination. -/
def TwoMin (F F2 : Multiset BT) : Prop :=
  ∃ t1 t2 G, F = t1 ::ₘ t2 ::ₘ G ∧
    (∀ u ∈ t2 ::ₘ G, t1.wt ≤ u.wt) ∧
    (∀ u ∈ G, t2.wt ≤ u.wt) ∧
    F2 = BT.nd t1 t2 ::ₘ G

/-- Runs of the abstract Huffman algorithm: repeatedly apply `TwoMin`
until a single tree remains. -/
inductive HuffRun : Multiset BT → BT → Prop where
  | single (t : BT) : HuffRun {t} t
  | step {F F2 : Multiset BT} {T : BT} :
      TwoMin F F2 → HuffRun F2 T → HuffRun F T

/-- Every child-link of the pool points to a strictly smaller slot. -/
def childLt (p : List HuffmanTree) : Prop :=
  ∀ j a, ((nodeAt p j).left = some a → a < j) ∧ ((nodeAt p j).right = some a → a < j)

/-- Subtree of a `BT` at a path (`false` = left, `true` = right). -/
def sub : BT → List Bool → Option BT
  | t, [] => some t
  | .lf _, _ :: _ => none
  | .nd l _, false :: q => sub l q
  | .nd _ r, true :: q => sub r q

/-- Replace the subtree at a path (identity when the path is invalid). -/
def repl : BT → List Bool → BT → BT
  | _, [], s => s
  | .lf w, _ :: _, _ => .lf w
  | .nd l r, false :: q, s => .nd (repl l q s) r
  | .nd l r, true :: q, s => .nd l (repl r q s)

/-- Two paths branch apart at some point: one goes left, the other right,
after a common prefix.  Distinct leaf positions always relate this way. -/
def Diverge (p q : List Bool) : Prop :=
  ∃ c p2 q2, p = c ++ (false :: p2) ∧ q = c ++ (true :: q2)

/-- Symmetric closure of `Diverge`. -/
def PathDiv (p q : List Bool) : Prop := Diverge p q ∨ Diverge q p

/-- Height of a `BT`. -/
def BT.ht : BT → Nat
  | .lf _ => 0
  | .nd l r => max l.ht r.ht + 1

/-- `t2` is `t` with one leaf of weight `w` replaced by the tree `s`. -/
def Sub1 (w : Nat) (s t t2 : BT) : Prop :=
  ∃ q, sub t q = some (BT.lf w) ∧ t2 = repl t q s

/-- `F2` is `F` with one leaf of weight `w` inside one element replaced by
the tree `s`. -/
def SubF (w : Nat) (s : BT) (F F2 : Multiset BT) : Prop :=
  ∃ t t2 G, F = t ::ₘ G ∧ Sub1 w s t t2 ∧ F2 = t2 ::ₘ G

/-! ## Basic facts about `keysOf` and `CharWeightMap.build` -/

theorem mem_keysOf (l : List Char) (x : Char) : x ∈ keysOf l ↔ x ∈ l := by
  induction l with
  | nil => simp [keysOf]
  | cons c rest ih =>
    simp only [keysOf, List.mem_cons, List.mem_filter]
    by_cases hx : x = c
    · simp [hx]
    · simp [hx, ih]

theorem keysOf_nodup (l : List Char) : (keysOf l).Nodup := by
  induction l with
  | nil => simp [keysOf]
  | cons c rest ih =>
    simp only [keysOf, List.nodup_cons]
    constructor
    · intro hmem
      have := (List.mem_filter.mp hmem).2
      simp at this
    · exact ih.filter _

theorem cwm_map_fst (input : List Char) :
    (CharWeightMap.build input).map Prod.fst = keysOf input := by
  simp [CharWeightMap.build, List.map_map, Function.comp_def]

/-- C6: `CharWeightMap::build` returns, for every input (empty included), a
table whose key set is exactly the distinct characters of the input with
exact occurrence counts; the empty input yields the empty table (and the
function is total — there is no failure path in the code). -/
theorem charWeightMap_build_exact (input : List Char) :
    IsCWM input (CharWeightMap.build input) ∧ CharWeightMap.build [] = [] := by
  refine ⟨⟨?_, ?_, ?_⟩, rfl⟩
  · rw [cwm_map_fst]
    exact keysOf_nodup input
  · intro c
    rw [cwm_map_fst]
    exact mem_keysOf input c
  · intro cw hcw
    simp only [CharWeightMap.build, List.mem_map] at hcw
    obtain ⟨c, _, rfl⟩ := hcw
    rfl

/-- Witness for C6 at a concrete input. -/
theorem charWeightMap_build_exact_witness :
    IsCWM ['a', 'b', 'a'] (CharWeightMap.build ['a', 'b', 'a']) ∧
      CharWeightMap.build [] = [] :=
  charWeightMap_build_exact ['a', 'b', 'a']

/-! ## C1: the empty table -/

/-- C1 (code bug): on an empty frequency table (`n = 0`) the code does not
report an `EmptyInput` error — it has no error return at all.  It computes
`2 * n - 1` in `usize`, which underflows and panics (debug) or demands an
absurd `usize::MAX`-slot allocation (release).  `none` is the model of that
panic; there is no value of the model standing for an explicit error. -/
theorem build_empty_table_panics : HuffmanTree.build [] = none := rfl

/-! ## C7: the single-entry table -/

/-- C7: on a one-entry table `HuffmanTree::build` performs no merge and
returns a pool consisting of the single node, which is simultaneously the
leaf carrying the character and its weight (value set, no children) and the
root (slot 0, no parent). -/
theorem build_singleton (c : Char) (w : Nat) :
    HuffmanTree.build [(c, w)] =
      some ([{ value := some c, weight := w, parent := none,
               left := none, right := none }], 0) := rfl

/-! ## C8: determinism -/

/-- C8 counterexample: two frequency tables that are equal as maps (same
key/weight pairs, distinct keys, only the `HashMap` iteration order
differs) on which `HuffmanTree::build` returns different trees: with the
permuted order the characters `a` and `b` end up at swapped leaf
positions.  Rust `HashMap` iteration order is not a function of the map's
contents, so equal tables really can present these two orders. -/
theorem build_perm_counterexample :
    List.Perm [('a', 1), ('b', 1), ('c', 1)] [('b', 1), ('a', 1), ('c', 1)] ∧
    ([('a', 1), ('b', 1), ('c', 1)].map Prod.fst).Nodup ∧
    builtTree [('a', 1), ('b', 1), ('c', 1)] ≠
      builtTree [('b', 1), ('a', 1), ('c', 1)] := by
  refine ⟨?_, by decide, by decide⟩
  exact List.Perm.swap' _ _ (List.Perm.refl _)

/-- C8 amended: `HuffmanTree::build` is a pure function of the table's
iteration sequence — two runs observing the same `(char, weight)` sequence
produce identical pools and trees.  (Equality of the underlying maps alone
does not suffice; see the counterexample.) -/
theorem build_deterministic (t1 t2 : List (Char × Nat)) (h : t1 = t2) :
    HuffmanTree.build t1 = HuffmanTree.build t2 ∧ builtTree t1 = builtTree t2 := by
  subst h; exact ⟨rfl, rfl⟩

/-- Witness for the amended C8 at a concrete table. -/
theorem build_deterministic_witness :
    HuffmanTree.build [('a', 3), ('b', 2)] = HuffmanTree.build [('a', 3), ('b', 2)] ∧
      builtTree [('a', 3), ('b', 2)] = builtTree [('a', 3), ('b', 2)] :=
  build_deterministic [('a', 3), ('b', 2)] [('a', 3), ('b', 2)] rfl

/-! ## Characterisation of `find_min` -/

theorem nodeAt_cons_zero (t : HuffmanTree) (rest : List HuffmanTree) :
    nodeAt (t :: rest) 0 = t := rfl

theorem nodeAt_cons_succ (t : HuffmanTree) (rest : List HuffmanTree) (k : Nat) :
    nodeAt (t :: rest) (k + 1) = nodeAt rest k := rfl

theorem findMinGo_eq (l : List HuffmanTree) :
    ∀ (idx mn : Nat) (res : Option Nat),
      findMinGo l idx mn res =
        match findMinB l mn with
        | some ow => some (idx + ow.1)
        | none => res := by
  induction l with
  | nil => intro idx mn res; rfl
  | cons t rest ih =>
    intro idx mn res
    by_cases h : t.parent = none ∧ t.weight < mn
    · rw [findMinGo, if_pos h, ih (idx + 1) t.weight (some idx)]
      show _ = (match findMinB (t :: rest) mn with
        | some ow => some (idx + ow.1) | none => res)
      rw [findMinB, if_pos h]
      cases hb : findMinB rest t.weight with
      | none => simp [hb]
      | some ow => simp [hb, Nat.add_assoc, Nat.add_comm 1 ow.1]
    · rw [findMinGo, if_neg h, ih (idx + 1) mn res]
      show _ = (match findMinB (t :: rest) mn with
        | some ow => some (idx + ow.1) | none => res)
      rw [findMinB, if_neg h]
      cases hb : findMinB rest mn with
      | none => simp [hb]
      | some ow => simp [hb, Nat.add_assoc, Nat.add_comm 1 ow.1]

theorem find_min_eq (l : List HuffmanTree) :
    HuffmanTree.find_min l =
      match findMinB l U64MAX with
      | some ow => some ow.1
      | none => none := by
  rw [HuffmanTree.find_min, findMinGo_eq]
  cases findMinB l U64MAX with
  | none => rfl
  | some ow => simp

theorem findMinB_none_spec (l : List HuffmanTree) :
    ∀ mn : Nat, findMinB l mn = none →
      ∀ k, k < l.length → (nodeAt l k).parent = none → mn ≤ (nodeAt l k).weight := by
  induction l with
  | nil => intro mn _ k hk; exact absurd hk (Nat.not_lt_zero k)
  | cons t rest ih =>
    intro mn h k hk hpar
    rw [findMinB] at h
    by_cases hc : t.parent = none ∧ t.weight < mn
    · rw [if_pos hc] at h
      cases hb : findMinB rest t.weight with
      | none => rw [hb] at h; cases h
      | some ow => rw [hb] at h; cases h
    · rw [if_neg hc] at h
      cases hb : findMinB rest mn with
      | some ow => rw [hb] at h; cases h
      | none =>
        match k with
        | 0 =>
          rw [nodeAt_cons_zero] at hpar ⊢
          by_contra hlt
          exact hc ⟨hpar, Nat.lt_of_not_le hlt⟩
        | k + 1 =>
          rw [nodeAt_cons_succ] at hpar ⊢
          exact ih mn hb k (Nat.lt_of_succ_lt_succ hk) hpar

theorem findMinB_some_spec (l : List HuffmanTree) :
    ∀ (mn o w : Nat), findMinB l mn = some (o, w) →
      o < l.length ∧ (nodeAt l o).parent = none ∧ w = (nodeAt l o).weight ∧ w < mn ∧
      (∀ k, k < l.length → (nodeAt l k).parent = none → w ≤ (nodeAt l k).weight) ∧
      (∀ k, k < o → (nodeAt l k).parent = none → w < (nodeAt l k).weight) := by
  induction l with
  | nil => intro mn o w h; exact absurd h (by simp [findMinB])
  | cons t rest ih =>
    intro mn o w h
    rw [findMinB] at h
    by_cases hc : t.parent = none ∧ t.weight < mn
    · rw [if_pos hc] at h
      cases hb : findMinB rest t.weight with
      | none =>
        rw [hb] at h
        simp only [Option.some.injEq, Prod.mk.injEq] at h
        obtain ⟨rfl, rfl⟩ := h
        refine ⟨Nat.succ_pos _, hc.1, rfl, hc.2, ?_, ?_⟩
        · intro k hk hpar
          match k with
          | 0 => exact Nat.le_refl _
          | k + 1 =>
            rw [nodeAt_cons_succ] at hpar ⊢
            exact findMinB_none_spec rest t.weight hb k
              (Nat.lt_of_succ_lt_succ hk) hpar
        · intro k hk; exact absurd hk (Nat.not_lt_zero k)
      | some ow =>
        rw [hb] at h
        simp only [Option.some.injEq, Prod.mk.injEq] at h
        obtain ⟨rfl, rfl⟩ := h
        obtain ⟨h1, h2, h3, h4, h5, h6⟩ := ih t.weight ow.1 ow.2 (by rw [hb])
        refine ⟨Nat.succ_lt_succ h1, h2, h3, Nat.lt_trans h4 hc.2, ?_, ?_⟩
        · intro k hk hpar
          match k with
          | 0 => exact Nat.le_of_lt h4
          | k + 1 =>
            rw [nodeAt_cons_succ] at hpar ⊢
            exact h5 k (Nat.lt_of_succ_lt_succ hk) hpar
        · intro k hk hpar
          match k with
          | 0 => exact h4
          | k + 1 =>
            rw [nodeAt_cons_succ] at hpar ⊢
            exact h6 k (Nat.lt_of_succ_lt_succ hk) hpar
    · rw [if_neg hc] at h
      cases hb : findMinB rest mn with
      | none => rw [hb] at h; cases h
      | some ow =>
        rw [hb] at h
        simp only [Option.some.injEq, Prod.mk.injEq] at h
        obtain ⟨rfl, rfl⟩ := h
        obtain ⟨h1, h2, h3, h4, h5, h6⟩ := ih mn ow.1 ow.2 (by rw [hb])
        have hzero : (nodeAt (t :: rest) 0).parent = none →
            ow.2 ≤ (nodeAt (t :: rest) 0).weight ∧ ow.2 < (nodeAt (t :: rest) 0).weight := by
          intro hpar
          rw [nodeAt_cons_zero] at hpar ⊢
          have hge : mn ≤ t.weight := by
            by_contra hlt
            exact hc ⟨hpar, Nat.lt_of_not_le hlt⟩
          exact ⟨Nat.le_of_lt (Nat.lt_of_lt_of_le h4 hge),
            Nat.lt_of_lt_of_le h4 hge⟩
        refine ⟨Nat.succ_lt_succ h1, h2, h3, h4, ?_, ?_⟩
        · intro k hk hpar
          match k with
          | 0 => exact (hzero hpar).1
          | k + 1 =>
            rw [nodeAt_cons_succ] at hpar ⊢
            exact h5 k (Nat.lt_of_succ_lt_succ hk) hpar
        · intro k hk hpar
          match k with
          | 0 => exact (hzero hpar).2
          | k + 1 =>
            rw [nodeAt_cons_succ] at hpar ⊢
            exact h6 k (Nat.lt_of_succ_lt_succ hk) hpar

theorem nodeAt_take (p : List HuffmanTree) (i k : Nat) (hk : k < i) :
    nodeAt (p.take i) k = nodeAt p k := by
  simp [nodeAt, List.getD_eq_getElem?_getD, List.getElem?_take, hk]

theorem nodeAt_set_same (p : List HuffmanTree) (k : Nat) (v : HuffmanTree)
    (hk : k < p.length) : nodeAt (p.set k v) k = v := by
  simp [nodeAt, List.getD_eq_getElem?_getD, List.getElem?_set, hk]

theorem nodeAt_set_other (p : List HuffmanTree) (j k : Nat) (v : HuffmanTree)
    (h : j ≠ k) : nodeAt (p.set j v) k = nodeAt p k := by
  simp [nodeAt, List.getD_eq_getElem?_getD, List.getElem?_set, h]

/-- What a successful `find_min` scan over the first `i` slots delivers:
an in-range unattached node of weight below `u64::MAX` whose weight is
minimal among all unattached scanned nodes, and which is the first slot
attaining that minimum (strictly smaller than every earlier unattached
node's weight). -/
theorem find_min_some_spec (p : List HuffmanTree) (j : Nat)
    (h : HuffmanTree.find_min p = some j) :
    j < p.length ∧ (nodeAt p j).parent = none ∧ (nodeAt p j).weight < U64MAX ∧
    (∀ k, k < p.length → (nodeAt p k).parent = none →
      (nodeAt p j).weight ≤ (nodeAt p k).weight) ∧
    (∀ k, k < j → (nodeAt p k).parent = none →
      (nodeAt p j).weight < (nodeAt p k).weight) := by
  rw [find_min_eq] at h
  cases hb : findMinB p U64MAX with
  | none => rw [hb] at h; cases h
  | some ow =>
    rw [hb] at h
    have hj : ow.1 = j := Option.some.inj h
    obtain ⟨h1, h2, h3, h4, h5, h6⟩ :=
      findMinB_some_spec p U64MAX ow.1 ow.2 (by rw [hb])
    subst hj
    rw [h3] at h4 h5 h6
    exact ⟨h1, h2, h4, h5, h6⟩

theorem find_min_none_spec (p : List HuffmanTree)
    (h : HuffmanTree.find_min p = none) :
    ∀ k, k < p.length → (nodeAt p k).parent = none →
      U64MAX ≤ (nodeAt p k).weight := by
  rw [find_min_eq] at h
  cases hb : findMinB p U64MAX with
  | some ow => rw [hb] at h; cases h
  | none => exact findMinB_none_spec p U64MAX hb

theorem find_min_isSome (p : List HuffmanTree) (k : Nat) (hk : k < p.length)
    (hpar : (nodeAt p k).parent = none) (hw : (nodeAt p k).weight < U64MAX) :
    ∃ j, HuffmanTree.find_min p = some j := by
  cases hfm : HuffmanTree.find_min p with
  | some j => exact ⟨j, rfl⟩
  | none =>
    exact absurd hw (Nat.not_lt_of_le (find_min_none_spec p hfm k hk hpar))

/-! ## Initialisation: the pool after leaf assignment -/

theorem initLeaves_length (cw : List (Char × Nat)) :
    ∀ (p : List HuffmanTree) (idx : Nat), (initLeaves p idx cw).length = p.length := by
  induction cw with
  | nil => intro p idx; rfl
  | cons c rest ih =>
    intro p idx
    rw [initLeaves, ih]
    exact List.length_set ..

theorem initLeaves_lower (cw : List (Char × Nat)) :
    ∀ (p : List HuffmanTree) (idx k : Nat), k < idx →
      nodeAt (initLeaves p idx cw) k = nodeAt p k := by
  induction cw with
  | nil => intro p idx k _; rfl
  | cons c rest ih =>
    intro p idx k hk
    rw [initLeaves, ih _ (idx + 1) k (by omega),
      nodeAt_set_other _ _ _ _ (Nat.ne_of_gt hk)]

theorem initLeaves_upper (cw : List (Char × Nat)) :
    ∀ (p : List HuffmanTree) (idx k : Nat), idx + cw.length ≤ k →
      nodeAt (initLeaves p idx cw) k = nodeAt p k := by
  induction cw with
  | nil => intro p idx k _; rfl
  | cons c rest ih =>
    intro p idx k hk
    rw [List.length_cons] at hk
    have h1 : idx + 1 + rest.length ≤ k := by omega
    have h2 : idx ≠ k := by omega
    rw [initLeaves, ih _ _ _ h1, nodeAt_set_other _ _ _ _ h2]

theorem initLeaves_at (cw : List (Char × Nat)) :
    ∀ (p : List HuffmanTree) (idx m : Nat) (hm : m < cw.length),
      idx + cw.length ≤ p.length →
      nodeAt (initLeaves p idx cw) (idx + m) =
        { nodeAt p (idx + m) with
          value := some (cw.get ⟨m, hm⟩).1, weight := (cw.get ⟨m, hm⟩).2 } := by
  induction cw with
  | nil => intro p idx m hm; exact absurd hm (Nat.not_lt_zero m)
  | cons c rest ih =>
    intro p idx m hm hlen
    rw [List.length_cons] at hlen
    match m with
    | 0 =>
      simp only [Nat.add_zero]
      rw [initLeaves]
      rw [initLeaves_lower rest _ (idx + 1) idx (by omega)]
      rw [nodeAt_set_same _ _ _ (by omega)]
      rfl
    | m + 1 =>
      have hm2 : m < rest.length := Nat.lt_of_succ_lt_succ hm
      have harith : idx + (m + 1) = (idx + 1) + m := by omega
      rw [initLeaves, harith, ih _ (idx + 1) m hm2 (by rw [List.length_set]; omega)]
      rw [nodeAt_set_other _ _ _ _ (by omega)]
      rfl

theorem nodeAt_replicate (n k : Nat) :
    nodeAt (List.replicate n HuffmanTree.new) k = HuffmanTree.new := by
  unfold nodeAt
  rcases Nat.lt_or_ge k n with h | h
  · simp [List.getD_eq_getElem?_getD, List.getElem?_replicate, h]
  · rw [List.getD_eq_default]
    rw [List.length_replicate]
    exact h

theorem nodeAt_ge_len (p : List HuffmanTree) (j : Nat) (h : p.length ≤ j) :
    nodeAt p j = HuffmanTree.new := by
  rw [nodeAt, List.getD_eq_default]
  exact h

theorem pool0_length (table : List (Char × Nat)) :
    (pool0 table).length = 2 * table.length - 1 := by
  rw [pool0, initLeaves_length, List.length_replicate]

theorem pool0_at (table : List (Char × Nat)) (j : Nat) (hj : j < table.length)
    (hn : 1 ≤ table.length) :
    nodeAt (pool0 table) j =
      { HuffmanTree.new with
        value := some (table.get ⟨j, hj⟩).1, weight := (table.get ⟨j, hj⟩).2 } := by
  have h := initLeaves_at table (List.replicate (2 * table.length - 1) HuffmanTree.new)
    0 j hj (by rw [List.length_replicate]; omega)
  simp only [Nat.zero_add] at h
  rw [pool0, h, nodeAt_replicate]

theorem pool0_upper (table : List (Char × Nat)) (j : Nat)
    (hj : table.length ≤ j) : nodeAt (pool0 table) j = HuffmanTree.new := by
  rw [pool0, initLeaves_upper table _ 0 j (by omega), nodeAt_replicate]

theorem loopInv_init (table : List (Char × Nat)) (hn : 1 ≤ table.length) :
    LoopInv table table.length (pool0 table) := by
  have hrange : unattList (pool0 table) table.length = List.range table.length := by
    apply List.filter_eq_self.mpr
    intro j hj
    rw [List.mem_range] at hj
    rw [decide_eq_true_eq, pool0_at table j hj hn]
    rfl
  refine ⟨pool0_length table, Nat.le_refl _, by omega, ?_, ?_, ?_, ?_, ?_, ?_⟩
  · intro j hj
    rw [pool0_at table j hj hn]
    exact ⟨rfl, rfl, rfl, rfl⟩
  · intro j h1 h2; omega
  · intro j h1 _; exact pool0_upper table j h1
  · rw [hrange, List.length_range]; omega
  · rw [hrange, totalW]
    congr 1
    apply List.ext_get
    · rw [List.length_map, List.length_range, List.length_map]
    · intro k h1 h2
      rw [List.length_map, List.length_range] at h1
      simp only [List.get_map, List.get_range]
      rw [pool0_at table k h1 hn]
  · intro j k hpar
    rcases Nat.lt_or_ge j table.length with hj | hj
    · rw [pool0_at table j hj hn] at hpar
      simp [HuffmanTree.new] at hpar
    · rcases Nat.lt_or_ge j (2 * table.length - 1) with hj2 | hj2
      · rw [pool0_upper table j hj] at hpar
        simp [HuffmanTree.new] at hpar
      · rw [nodeAt_ge_len _ _ (by rw [pool0_length]; exact hj2)] at hpar
        simp [HuffmanTree.new] at hpar

/-! ## Helper lemmas about the unattached-slot list and pool updates -/

theorem mem_unattList (p : List HuffmanTree) (i k : Nat) :
    k ∈ unattList p i ↔ k < i ∧ (nodeAt p k).parent = none := by
  simp [unattList, List.mem_filter, List.mem_range]

theorem unattList_nodup (p : List HuffmanTree) (i : Nat) :
    (unattList p i).Nodup :=
  (List.nodup_range i).filter _

theorem sum_two_le (L : List Nat) (f : Nat → Nat) (a b : Nat)
    (ha : a ∈ L) (hb : b ∈ L) (hab : a ≠ b) :
    f a + f b ≤ (L.map f).sum := by
  have h1 : (L : Multiset Nat) = a ::ₘ (L : Multiset Nat).erase a :=
    (Multiset.cons_erase (by exact_mod_cast ha)).symm
  have hb2 : (b : Nat) ∈ (L : Multiset Nat).erase a := by
    rw [Multiset.mem_erase_of_ne (Ne.symm hab)]
    exact_mod_cast hb
  have h2 : (L : Multiset Nat).erase a =
      b ::ₘ ((L : Multiset Nat).erase a).erase b :=
    (Multiset.cons_erase hb2).symm
  have : ((L : Multiset Nat).map f).sum =
      f a + (f b + (((L : Multiset Nat).erase a).erase b |>.map f).sum) := by
    conv_lhs => rw [h1, h2]
    rw [Multiset.map_cons, Multiset.map_cons, Multiset.sum_cons, Multiset.sum_cons]
  have hcoe : (L.map f).sum = ((L : Multiset Nat).map f).sum := by
    rw [Multiset.map_coe, Multiset.sum_coe]
  rw [hcoe, this]
  omega

theorem unatt_weight_le (table : List (Char × Nat)) (i : Nat)
    (p : List HuffmanTree) (inv : LoopInv table i p) (k : Nat)
    (hk : k ∈ unattList p i) : (nodeAt p k).weight ≤ totalW table := by
  rw [← inv.wsum]
  exact List.single_le_sum (fun x _ => Nat.zero_le x) _
    (List.mem_map_of_mem _ hk)

theorem two_unatt_weight_le (table : List (Char × Nat)) (i : Nat)
    (p : List HuffmanTree) (inv : LoopInv table i p) (j1 j2 : Nat)
    (h1 : j1 ∈ unattList p i) (h2 : j2 ∈ unattList p i) (hne : j1 ≠ j2) :
    (nodeAt p j1).weight + (nodeAt p j2).weight ≤ totalW table := by
  rw [← inv.wsum]
  exact sum_two_le _ (fun j => (nodeAt p j).weight) j1 j2 h1 h2 hne

theorem u64max_lt : U64MAX < U64MOD := by
  rw [U64MAX, U64MOD]
  exact Nat.sub_lt (Nat.two_pow_pos 64) Nat.one_pos

theorem nodeAt_setParent_same (p : List HuffmanTree) (j i : Nat)
    (hj : j < p.length) :
    nodeAt (setParent p j i) j = { nodeAt p j with parent := some i } := by
  rw [setParent, nodeAt_set_same _ _ _ hj]

theorem nodeAt_setParent_other (p : List HuffmanTree) (j i k : Nat)
    (hk : j ≠ k) : nodeAt (setParent p j i) k = nodeAt p k := by
  rw [setParent, nodeAt_set_other _ _ _ _ hk]

theorem setParent_length (p : List HuffmanTree) (j i : Nat) :
    (setParent p j i).length = p.length := by
  rw [setParent, List.length_set]

theorem mergedPool_length (p : List HuffmanTree) (i j1 j2 : Nat) :
    (mergedPool p i j1 j2).length = p.length := by
  rw [mergedPool, List.length_set, setParent_length, setParent_length]

theorem mergedPool_at_j1 (p : List HuffmanTree) (i j1 j2 : Nat)
    (h1 : j1 < p.length) (hne : j1 ≠ j2) (hi1 : j1 ≠ i) :
    nodeAt (mergedPool p i j1 j2) j1 = { nodeAt p j1 with parent := some i } := by
  rw [mergedPool, nodeAt_set_other _ _ _ _ (Ne.symm hi1),
    nodeAt_setParent_other _ _ _ _ (Ne.symm hne), nodeAt_setParent_same _ _ _ h1]

theorem mergedPool_at_j2 (p : List HuffmanTree) (i j1 j2 : Nat)
    (h2 : j2 < p.length) (hne : j1 ≠ j2) (hi2 : j2 ≠ i) :
    nodeAt (mergedPool p i j1 j2) j2 = { nodeAt p j2 with parent := some i } := by
  rw [mergedPool, nodeAt_set_other _ _ _ _ (Ne.symm hi2),
    nodeAt_setParent_same _ _ _ (by rw [setParent_length]; exact h2),
    nodeAt_setParent_other _ _ _ _ hne]

theorem mergedPool_at_i (p : List HuffmanTree) (i j1 j2 : Nat)
    (hi : i < p.length) :
    nodeAt (mergedPool p i j1 j2) i =
      { nodeAt p i with
        weight := (nodeAt p j1).weight + (nodeAt p j2).weight,
        left := some j1, right := some j2 } := by
  rw [mergedPool, nodeAt_set_same _ _ _ (by rw [setParent_length, setParent_length]; exact hi)]

theorem mergedPool_at_other (p : List HuffmanTree) (i j1 j2 k : Nat)
    (hk1 : k ≠ j1) (hk2 : k ≠ j2) (hki : k ≠ i) :
    nodeAt (mergedPool p i j1 j2) k = nodeAt p k := by
  rw [mergedPool, nodeAt_set_other _ _ _ _ (Ne.symm hki),
    nodeAt_setParent_other _ _ _ _ (Ne.symm hk2),
    nodeAt_setParent_other _ _ _ _ (Ne.symm hk1)]

/-- Full description of one merge-loop iteration under the invariant: both
`find_min` scans succeed, the first pick `j1` is the first minimum-weight
unattached slot of `[0, i)`, the second pick `j2` is the first
minimum-weight unattached slot excluding `j1`, and the step produces
exactly `mergedPool p i j1 j2` (the weight addition cannot wrap). -/
theorem step_spec (table : List (Char × Nat)) (i : Nat) (p : List HuffmanTree)
    (inv : LoopInv table i p) (hW : totalW table < U64MAX)
    (hi : i < 2 * table.length - 1) :
    ∃ j1 j2,
      HuffmanTree.find_min (p.take i) = some j1 ∧
      HuffmanTree.find_min ((setParent p j1 i).take i) = some j2 ∧
      j1 < i ∧ j2 < i ∧ j1 ≠ j2 ∧
      (nodeAt p j1).parent = none ∧ (nodeAt p j2).parent = none ∧
      (∀ k, k < i → (nodeAt p k).parent = none →
        (nodeAt p j1).weight ≤ (nodeAt p k).weight) ∧
      (∀ k, k < j1 → (nodeAt p k).parent = none →
        (nodeAt p j1).weight < (nodeAt p k).weight) ∧
      (∀ k, k < i → k ≠ j1 → (nodeAt p k).parent = none →
        (nodeAt p j2).weight ≤ (nodeAt p k).weight) ∧
      (∀ k, k < j2 → k ≠ j1 → (nodeAt p k).parent = none →
        (nodeAt p j2).weight < (nodeAt p k).weight) ∧
      mergeStep p i = some (mergedPool p i j1 j2) := by
  have hlen : p.length = 2 * table.length - 1 := inv.len
  have htake : (p.take i).length = i := by
    rw [List.length_take]; omega
  have hge2 : 2 ≤ (unattList p i).length := by
    rw [inv.cnt]; omega
  obtain ⟨k0, hk0⟩ : ∃ k, k ∈ unattList p i := by
    cases h : unattList p i with
    | nil => rw [h] at hge2; simp at hge2
    | cons a t => exact ⟨a, List.mem_cons_self a t⟩
  obtain ⟨hk0i, hk0p⟩ := (mem_unattList p i k0).mp hk0
  have hk0w : (nodeAt p k0).weight < U64MAX :=
    Nat.lt_of_le_of_lt (unatt_weight_le table i p inv k0 hk0) hW
  obtain ⟨j1, hfm1⟩ := find_min_isSome (p.take i) k0 (by rw [htake]; exact hk0i)
    (by rw [nodeAt_take p i k0 hk0i]; exact hk0p)
    (by rw [nodeAt_take p i k0 hk0i]; exact hk0w)
  obtain ⟨hj1len, hj1par, _, hj1min, hj1first⟩ := find_min_some_spec _ _ hfm1
  rw [htake] at hj1len
  rw [nodeAt_take p i j1 hj1len] at hj1par
  have hj1plen : j1 < p.length := by omega
  have hj1min' : ∀ k, k < i → (nodeAt p k).parent = none →
      (nodeAt p j1).weight ≤ (nodeAt p k).weight := by
    intro k hk hpar
    have h := hj1min k (by rw [htake]; exact hk)
      (by rw [nodeAt_take p i k hk]; exact hpar)
    rw [nodeAt_take p i k hk, nodeAt_take p i j1 hj1len] at h
    exact h
  have hj1first' : ∀ k, k < j1 → (nodeAt p k).parent = none →
      (nodeAt p j1).weight < (nodeAt p k).weight := by
    intro k hk hpar
    have hki : k < i := Nat.lt_trans hk hj1len
    have h := hj1first k hk (by rw [nodeAt_take p i k hki]; exact hpar)
    rw [nodeAt_take p i k hki, nodeAt_take p i j1 hj1len] at h
    exact h
  have hj1mem : j1 ∈ unattList p i := (mem_unattList p i j1).mpr ⟨hj1len, hj1par⟩
  -- the second scan, on the pool with j1 marked
  have hp1len : (setParent p j1 i).length = p.length := setParent_length p j1 i
  have htake1 : ((setParent p j1 i).take i).length = i := by
    rw [List.length_take, hp1len]; omega
  have hnp1 : ∀ k, k ≠ j1 → nodeAt (setParent p j1 i) k = nodeAt p k := by
    intro k hk
    exact nodeAt_setParent_other p j1 i k (Ne.symm hk)
  obtain ⟨k1, hk1⟩ : ∃ k, k ∈ (unattList p i).erase j1 := by
    have h1 : 1 ≤ ((unattList p i).erase j1).length := by
      rw [List.length_erase_of_mem hj1mem]; omega
    cases h : (unattList p i).erase j1 with
    | nil => rw [h] at h1; simp at h1
    | cons a t => exact ⟨a, List.mem_cons_self a t⟩
  obtain ⟨hk1ne, hk1mem⟩ := ((unattList_nodup p i).mem_erase_iff).mp hk1
  obtain ⟨hk1i, hk1par⟩ := (mem_unattList p i k1).mp hk1mem
  have hk1w : (nodeAt p k1).weight < U64MAX :=
    Nat.lt_of_le_of_lt (unatt_weight_le table i p inv k1 hk1mem) hW
  obtain ⟨j2, hfm2⟩ := find_min_isSome ((setParent p j1 i).take i) k1
    (by rw [htake1]; exact hk1i)
    (by rw [nodeAt_take _ i k1 hk1i, hnp1 k1 hk1ne]; exact hk1par)
    (by rw [nodeAt_take _ i k1 hk1i, hnp1 k1 hk1ne]; exact hk1w)
  obtain ⟨hj2len, hj2par, _, hj2min, hj2first⟩ := find_min_some_spec _ _ hfm2
  rw [htake1] at hj2len
  rw [nodeAt_take _ i j2 hj2len] at hj2par
  have hj2ne : j2 ≠ j1 := by
    intro h
    rw [h, nodeAt_setParent_same p j1 i hj1plen] at hj2par
    cases hj2par
  have hj2par' : (nodeAt p j2).parent = none := by
    rw [← hnp1 j2 hj2ne]; exact hj2par
  have hj2min' : ∀ k, k < i → k ≠ j1 → (nodeAt p k).parent = none →
      (nodeAt p j2).weight ≤ (nodeAt p k).weight := by
    intro k hk hkne hpar
    have h := hj2min k (by rw [htake1]; exact hk)
      (by rw [nodeAt_take _ i k hk, hnp1 k hkne]; exact hpar)
    rw [nodeAt_take _ i k hk, hnp1 k hkne,
      nodeAt_take _ i j2 hj2len, hnp1 j2 hj2ne] at h
    exact h
  have hj2first' : ∀ k, k < j2 → k ≠ j1 → (nodeAt p k).parent = none →
      (nodeAt p j2).weight < (nodeAt p k).weight := by
    intro k hk hkne hpar
    have hki : k < i := Nat.lt_trans hk hj2len
    have h := hj2first k hk
      (by rw [nodeAt_take _ i k hki, hnp1 k hkne]; exact hpar)
    rw [nodeAt_take _ i k hki, hnp1 k hkne,
      nodeAt_take _ i j2 hj2len, hnp1 j2 hj2ne] at h
    exact h
  have hj2mem : j2 ∈ unattList p i := (mem_unattList p i j2).mpr ⟨hj2len, hj2par'⟩
  -- the merge itself cannot wrap
  have hmod : ((nodeAt p j1).weight + (nodeAt p j2).weight) % U64MOD =
      (nodeAt p j1).weight + (nodeAt p j2).weight := by
    apply Nat.mod_eq_of_lt
    have hle := two_unatt_weight_le table i p inv j1 j2 hj1mem hj2mem (Ne.symm hj2ne)
    exact Nat.lt_trans (Nat.lt_of_le_of_lt hle hW) u64max_lt
  have e1 : (nodeAt (setParent (setParent p j1 i) j2 i) j1).weight =
      (nodeAt p j1).weight := by
    rw [nodeAt_setParent_other _ _ _ _ hj2ne, nodeAt_setParent_same p j1 i hj1plen]
  have e2 : (nodeAt (setParent (setParent p j1 i) j2 i) j2).weight =
      (nodeAt p j2).weight := by
    rw [nodeAt_setParent_same _ _ _ (by rw [hp1len]; omega),
      hnp1 j2 hj2ne]
  have e3 : nodeAt (setParent (setParent p j1 i) j2 i) i = nodeAt p i := by
    rw [nodeAt_setParent_other _ _ _ _ (by omega),
      nodeAt_setParent_other _ _ _ _ (by omega)]
  have hstep : mergeStep p i = some (mergedPool p i j1 j2) := by
    rw [mergeStep, hfm1]
    simp only []
    rw [hfm2]
    simp only [e1, e2, e3, hmod]
    rfl
  exact ⟨j1, j2, hfm1, hfm2, hj1len, hj2len, Ne.symm hj2ne, hj1par, hj2par',
    hj1min', hj1first', hj2min', hj2first', hstep⟩

/-- After a merge at slot `i`, the unattached slots are the previous ones
minus the consumed `j1`, `j2`, plus the fresh slot `i`. -/
theorem unattList_merged (p : List HuffmanTree) (i j1 j2 : Nat)
    (hj1i : j1 < i) (hj2i : j2 < i) (hne : j1 ≠ j2)
    (hleni : i < p.length) (hpar_i : (nodeAt p i).parent = none) :
    unattList (mergedPool p i j1 j2) (i + 1) =
      ((unattList p i).erase j1).erase j2 ++ [i] := by
  have hC : ((unattList p i).erase j1).erase j2 =
      (unattList p i).filter (fun k => (k != j1) && (k != j2)) := by
    rw [(unattList_nodup p i).erase_eq_filter,
      ((unattList_nodup p i).filter _).erase_eq_filter, List.filter_filter]
    apply List.filter_congr
    intro a _
    rw [Bool.and_comm]
  have hB : unattList (mergedPool p i j1 j2) i =
      (unattList p i).filter (fun k => (k != j1) && (k != j2)) := by
    rw [unattList, unattList, List.filter_filter]
    apply List.filter_congr
    intro k hk
    rw [List.mem_range] at hk
    by_cases h1 : k = j1
    · subst h1
      rw [mergedPool_at_j1 p i k j2 (by omega) hne (by omega)]
      simp
    · by_cases h2 : k = j2
      · subst h2
        rw [mergedPool_at_j2 p i j1 k (by omega) hne (by omega)]
        simp
      · rw [mergedPool_at_other p i j1 j2 k h1 h2 (by omega)]
        simp [h1, h2]
  rw [unattList, List.range_succ, List.filter_append, ← unattList, hB, hC]
  congr 1
  have : (nodeAt (mergedPool p i j1 j2) i).parent = none := by
    rw [mergedPool_at_i p i j1 j2 hleni]
    exact hpar_i
  simp [this]

/-- The loop invariant is preserved by a merge step. -/
theorem step_inv (table : List (Char × Nat)) (i : Nat) (p : List HuffmanTree)
    (inv : LoopInv table i p) (hi : i < 2 * table.length - 1)
    (j1 j2 : Nat) (hj1i : j1 < i) (hj2i : j2 < i) (hne : j1 ≠ j2)
    (hp1 : (nodeAt p j1).parent = none) (hp2 : (nodeAt p j2).parent = none)
    (hw12 : (nodeAt p j1).weight ≤ (nodeAt p j2).weight) :
    LoopInv table (i + 1) (mergedPool p i j1 j2) := by
  have hlen : p.length = 2 * table.length - 1 := inv.len
  have hleni : i < p.length := by omega
  have hfreshi : nodeAt p i = HuffmanTree.new := inv.fresh i (Nat.le_refl i) hi
  have hpar_i : (nodeAt p i).parent = none := by rw [hfreshi]; rfl
  have hsame : ∀ k, k ≠ i →
      (nodeAt (mergedPool p i j1 j2) k).value = (nodeAt p k).value ∧
      (nodeAt (mergedPool p i j1 j2) k).weight = (nodeAt p k).weight ∧
      (nodeAt (mergedPool p i j1 j2) k).left = (nodeAt p k).left ∧
      (nodeAt (mergedPool p i j1 j2) k).right = (nodeAt p k).right := by
    intro k hk
    by_cases h1 : k = j1
    · subst h1
      rw [mergedPool_at_j1 p i k j2 (by omega) hne (by omega)]
      exact ⟨rfl, rfl, rfl, rfl⟩
    · by_cases h2 : k = j2
      · subst h2
        rw [mergedPool_at_j2 p i j1 k (by omega) hne (by omega)]
        exact ⟨rfl, rfl, rfl, rfl⟩
      · rw [mergedPool_at_other p i j1 j2 k h1 h2 hk]
        exact ⟨rfl, rfl, rfl, rfl⟩
  have hm1 : j1 ∈ unattList p i := (mem_unattList p i j1).mpr ⟨hj1i, hp1⟩
  have hm2 : j2 ∈ (unattList p i).erase j1 :=
    (unattList_nodup p i).mem_erase_iff.mpr
      ⟨Ne.symm hne, (mem_unattList p i j2).mpr ⟨hj2i, hp2⟩⟩
  refine ⟨?_, ?_, ?_, ?_, ?_, ?_, ?_, ?_, ?_⟩
  · rw [mergedPool_length]; exact hlen
  · have := inv.lo; omega
  · omega
  · intro j hj
    have hji : j ≠ i := by have := inv.lo; omega
    obtain ⟨v, w, l, r⟩ := inv.leaf j hj
    obtain ⟨sv, sw, sl, sr⟩ := hsame j hji
    exact ⟨by rw [sv]; exact v, by rw [sw]; exact w,
      by rw [sl]; exact l, by rw [sr]; exact r⟩
  · intro j hjlo hjhi
    by_cases hji : j = i
    · rw [hji]
      rw [mergedPool_at_i p i j1 j2 hleni]
      refine ⟨by simp [hfreshi, HuffmanTree.new], j1, j2, rfl, rfl, hj1i, hj2i, hne, ?_, ?_⟩
      · rw [(hsame j1 (by omega)).2.1, (hsame j2 (by omega)).2.1]
      · rw [(hsame j1 (by omega)).2.1, (hsame j2 (by omega)).2.1]
        exact hw12
    · have hjlt : j < i := by omega
      obtain ⟨v, a, b, hl, hr, ha, hb, hab, hwt, hord⟩ := inv.internal j hjlo hjlt
      obtain ⟨sv, sw, sl, sr⟩ := hsame j hji
      have hai : a ≠ i := by omega
      have hbi : b ≠ i := by omega
      refine ⟨by rw [sv]; exact v, a, b, by rw [sl]; exact hl,
        by rw [sr]; exact hr, ha, hb, hab, ?_, ?_⟩
      · rw [sw, (hsame a hai).2.1, (hsame b hbi).2.1]; exact hwt
      · rw [(hsame a hai).2.1, (hsame b hbi).2.1]; exact hord
  · intro j hjlo hjhi
    have h1 : j ≠ j1 := by omega
    have h2 : j ≠ j2 := by omega
    have h3 : j ≠ i := by omega
    rw [mergedPool_at_other p i j1 j2 j h1 h2 h3]
    exact inv.fresh j (by omega) hjhi
  · rw [unattList_merged p i j1 j2 hj1i hj2i hne hleni hpar_i,
      List.length_append, List.length_erase_of_mem hm2,
      List.length_erase_of_mem hm1, inv.cnt]
    have := inv.lo
    simp
    omega
  · rw [unattList_merged p i j1 j2 hj1i hj2i hne hleni hpar_i,
      List.map_append, List.sum_append]
    have hmemff : ∀ k ∈ ((unattList p i).erase j1).erase j2,
        (nodeAt (mergedPool p i j1 j2) k).weight = (nodeAt p k).weight := by
      intro k hk
      have hk1 : k ∈ unattList p i :=
        List.mem_of_mem_erase (List.mem_of_mem_erase hk)
      have hki : k < i := ((mem_unattList p i k).mp hk1).1
      exact (hsame k (by omega)).2.1
    rw [List.map_congr_left hmemff]
    have hwi : (nodeAt (mergedPool p i j1 j2) i).weight =
        (nodeAt p j1).weight + (nodeAt p j2).weight := by
      rw [mergedPool_at_i p i j1 j2 hleni]
    have hperm : List.Perm (unattList p i)
        (j1 :: j2 :: ((unattList p i).erase j1).erase j2) :=
      (List.perm_cons_erase hm1).trans ((List.perm_cons_erase hm2).cons j1)
    have hsum := (hperm.map (fun k => (nodeAt p k).weight)).sum_eq
    rw [inv.wsum] at hsum
    simp only [List.map_cons, List.sum_cons] at hsum
    simp only [List.map_cons, List.map_nil, List.sum_cons, List.sum_nil, hwi]
    omega
  · intro j k hpar
    by_cases h1 : j = j1
    · subst h1
      rw [mergedPool_at_j1 p i j j2 (by omega) hne (by omega)] at hpar
      simp at hpar
      omega
    · by_cases h2 : j = j2
      · subst h2
        rw [mergedPool_at_j2 p i j1 j (by omega) hne (by omega)] at hpar
        simp at hpar
        omega
      · by_cases h3 : j = i
        · rw [h3] at hpar
          rw [mergedPool_at_i p i j1 j2 hleni] at hpar
          rw [show ({ nodeAt p i with
              weight := (nodeAt p j1).weight + (nodeAt p j2).weight,
              left := some j1, right := some j2 } : HuffmanTree).parent
              = (nodeAt p i).parent from rfl, hpar_i] at hpar
          cases hpar
        · rw [mergedPool_at_other p i j1 j2 j h1 h2 h3] at hpar
          have := inv.parent_lt j k hpar
          omega

/-! ## Running the loop -/

theorem loopTo_init (table : List (Char × Nat)) :
    loopTo table table.length = some (pool0 table) := by
  rw [loopTo, Nat.sub_self]
  rfl

theorem buildLoop_succ (k : Nat) :
    ∀ (p : List HuffmanTree) (i : Nat),
      buildLoop p i (k + 1) =
        (buildLoop p i k).bind (fun q => mergeStep q (i + k)) := by
  induction k with
  | zero =>
    intro p i
    rw [buildLoop]
    cases h : mergeStep p i with
    | none => simp [h, buildLoop]
    | some p1 => simp [h, buildLoop]
  | succ k ih =>
    intro p i
    cases h : mergeStep p i with
    | none =>
      have hL : buildLoop p i (k + 1 + 1) = none := by rw [buildLoop, h]
      have hR : buildLoop p i (k + 1) = none := by rw [buildLoop, h]
      rw [hL, hR]
      rfl
    | some p1 =>
      have hL : buildLoop p i (k + 1 + 1) = buildLoop p1 (i + 1) (k + 1) := by
        rw [buildLoop, h]
      have hR : buildLoop p i (k + 1) = buildLoop p1 (i + 1) k := by
        rw [buildLoop, h]
      rw [hL, hR, ih p1 (i + 1)]
      have harith : i + 1 + k = i + (k + 1) := by omega
      rw [harith]

theorem loopTo_succ (table : List (Char × Nat)) (i : Nat)
    (h : table.length ≤ i) :
    loopTo table (i + 1) = (loopTo table i).bind (fun q => mergeStep q i) := by
  rw [loopTo, loopTo]
  have h1 : i + 1 - table.length = (i - table.length) + 1 := by omega
  rw [h1, buildLoop_succ]
  have h2 : table.length + (i - table.length) = i := by omega
  rw [h2]

/-- The loop maintains the invariant: at every slot `n ≤ i ≤ 2n - 1` the
pool state exists (no `unwrap` has panicked) and satisfies `LoopInv`. -/
theorem loopTo_inv (table : List (Char × Nat)) (hn : 1 ≤ table.length)
    (hW : totalW table < U64MAX) :
    ∀ i, table.length ≤ i → i ≤ 2 * table.length - 1 →
      ∃ p, loopTo table i = some p ∧ LoopInv table i p := by
  intro i hni
  induction i, hni using Nat.le_induction with
  | base =>
    intro _
    exact ⟨pool0 table, loopTo_init table, loopInv_init table hn⟩
  | succ i hni ih =>
    intro hle
    have hi : i < 2 * table.length - 1 := by omega
    obtain ⟨p, hp, inv⟩ := ih (by omega)
    obtain ⟨j1, j2, hfm1, hfm2, hj1i, hj2i, hne, hp1, hp2,
      hj1min, hj1first, hj2min, hj2first, hstep⟩ := step_spec table i p inv hW hi
    have hw12 : (nodeAt p j1).weight ≤ (nodeAt p j2).weight :=
      hj1min j2 hj2i hp2
    refine ⟨mergedPool p i j1 j2, ?_,
      step_inv table i p inv hi j1 j2 hj1i hj2i hne hp1 hp2 hw12⟩
    rw [loopTo_succ table i (by omega), hp]
    exact hstep

/-! ## The pool as a forest of abstract trees -/

theorem inv_childLt (table : List (Char × Nat)) (i : Nat) (p : List HuffmanTree)
    (inv : LoopInv table i p) : childLt p := by
  intro j a
  rcases Nat.lt_or_ge j table.length with hj | hj
  · obtain ⟨_, _, hl, hr⟩ := inv.leaf j hj
    exact ⟨fun h => absurd h (by rw [hl]; exact fun he => Option.noConfusion he),
      fun h => absurd h (by rw [hr]; exact fun he => Option.noConfusion he)⟩
  · rcases Nat.lt_or_ge j i with hji | hji
    · obtain ⟨_, a0, b0, hl, hr, ha0, hb0, _, _, _⟩ := inv.internal j hj hji
      constructor
      · intro h; rw [hl] at h; cases h; exact ha0
      · intro h; rw [hr] at h; cases h; exact hb0
    · rcases Nat.lt_or_ge j (2 * table.length - 1) with hj2 | hj2
      · rw [inv.fresh j hji hj2]
        exact ⟨fun h => Option.noConfusion h, fun h => Option.noConfusion h⟩
      · rw [nodeAt_ge_len p j (by rw [inv.len]; exact hj2)]
        exact ⟨fun h => Option.noConfusion h, fun h => Option.noConfusion h⟩

theorem toBT_fuel (p : List HuffmanTree) (hcl : childLt p) :
    ∀ j, ∀ fuel fuel2, j < fuel → j < fuel2 →
      toBT fuel p j = toBT fuel2 p j := by
  intro j
  induction j using Nat.strong_induction_on with
  | _ j ih =>
    intro fuel fuel2 h1 h2
    match fuel, fuel2 with
    | f + 1, g + 1 =>
      cases hl : (nodeAt p j).left with
      | none => simp only [toBT, hl]
      | some a =>
        cases hr : (nodeAt p j).right with
        | none => simp only [toBT, hl, hr]
        | some b =>
          have ha : a < j := (hcl j a).1 hl
          have hb : b < j := (hcl j b).2 hr
          simp only [toBT, hl, hr]
          rw [ih a ha f g (by omega) (by omega), ih b hb f g (by omega) (by omega)]

theorem toBT_agree (p q : List HuffmanTree) (hcl : childLt p) :
    ∀ fuel j,
      (∀ k, k ≤ j →
        (nodeAt p k).left = (nodeAt q k).left ∧
        (nodeAt p k).right = (nodeAt q k).right ∧
        (nodeAt p k).weight = (nodeAt q k).weight) →
      toBT fuel p j = toBT fuel q j := by
  intro fuel
  induction fuel with
  | zero =>
    intro j hag
    rw [toBT, toBT, (hag j (Nat.le_refl j)).2.2]
  | succ fuel ih =>
    intro j hag
    obtain ⟨hl, hr, hw⟩ := hag j (Nat.le_refl j)
    cases hal : (nodeAt p j).left with
    | none =>
      have hql : (nodeAt q j).left = none := by rw [← hl, hal]
      simp only [toBT, hal, hql, hw]
    | some a =>
      cases har : (nodeAt p j).right with
      | none =>
        have hql : (nodeAt q j).left = some a := by rw [← hl, hal]
        have hqr : (nodeAt q j).right = none := by rw [← hr, har]
        simp only [toBT, hal, har, hql, hqr, hw]
      | some b =>
        have hql : (nodeAt q j).left = some a := by rw [← hl, hal]
        have hqr : (nodeAt q j).right = some b := by rw [← hr, har]
        have ha : a < j := (hcl j a).1 hal
        have hb : b < j := (hcl j b).2 har
        simp only [toBT, hal, har, hql, hqr]
        rw [ih a (fun k hk => hag k (by omega)), ih b (fun k hk => hag k (by omega))]

theorem toBT_wt (table : List (Char × Nat)) (i : Nat) (p : List HuffmanTree)
    (inv : LoopInv table i p) :
    ∀ j, j < i → ∀ fuel, j < fuel → (toBT fuel p j).wt = (nodeAt p j).weight := by
  intro j
  induction j using Nat.strong_induction_on with
  | _ j ih =>
    intro hji fuel hfuel
    match fuel with
    | f + 1 =>
      cases hl : (nodeAt p j).left with
      | none => simp only [toBT, hl, BT.wt]
      | some a =>
        cases hr : (nodeAt p j).right with
        | none => simp only [toBT, hl, hr, BT.wt]
        | some b =>
          have hjn : table.length ≤ j := by
            by_contra hlt
            obtain ⟨_, _, hl0, _⟩ := inv.leaf j (Nat.lt_of_not_le hlt)
            rw [hl0] at hl
            cases hl
          obtain ⟨_, a0, b0, hl0, hr0, ha0, hb0, _, hwt, _⟩ :=
            inv.internal j hjn hji
          have haa : a0 = a := Option.some.inj (hl0.symm.trans hl)
          have hbb : b0 = b := Option.some.inj (hr0.symm.trans hr)
          subst haa
          subst hbb
          simp only [toBT, hl, hr, BT.wt]
          rw [ih a0 ha0 (by omega) f (by omega), ih b0 hb0 (by omega) f (by omega)]
          exact hwt.symm

theorem mergedPool_same (p : List HuffmanTree) (i j1 j2 : Nat)
    (hj1i : j1 < i) (hj2i : j2 < i) (hne : j1 ≠ j2) (hleni : i < p.length) :
    ∀ k, k ≠ i →
      (nodeAt (mergedPool p i j1 j2) k).left = (nodeAt p k).left ∧
      (nodeAt (mergedPool p i j1 j2) k).right = (nodeAt p k).right ∧
      (nodeAt (mergedPool p i j1 j2) k).weight = (nodeAt p k).weight := by
  intro k hk
  by_cases h1 : k = j1
  · subst h1
    rw [mergedPool_at_j1 p i k j2 (by omega) hne (by omega)]
    exact ⟨rfl, rfl, rfl⟩
  · by_cases h2 : k = j2
    · subst h2
      rw [mergedPool_at_j2 p i j1 k (by omega) hne (by omega)]
      exact ⟨rfl, rfl, rfl⟩
    · rw [mergedPool_at_other p i j1 j2 k h1 h2 hk]
      exact ⟨rfl, rfl, rfl⟩

/-- One pool merge step is one abstract `TwoMin` step on the forest. -/
theorem forest_step (table : List (Char × Nat)) (i : Nat) (p : List HuffmanTree)
    (inv : LoopInv table i p) (hi : i < 2 * table.length - 1)
    (j1 j2 : Nat) (hj1i : j1 < i) (hj2i : j2 < i) (hne : j1 ≠ j2)
    (hp1 : (nodeAt p j1).parent = none) (hp2 : (nodeAt p j2).parent = none)
    (hj1min : ∀ k, k < i → (nodeAt p k).parent = none →
      (nodeAt p j1).weight ≤ (nodeAt p k).weight)
    (hj2min : ∀ k, k < i → k ≠ j1 → (nodeAt p k).parent = none →
      (nodeAt p j2).weight ≤ (nodeAt p k).weight) :
    TwoMin (forestAt p i) (forestAt (mergedPool p i j1 j2) (i + 1)) := by
  have hlen : p.length = 2 * table.length - 1 := inv.len
  have hleni : i < p.length := by omega
  have hcl : childLt p := inv_childLt table i p inv
  have hfreshi : nodeAt p i = HuffmanTree.new :=
    inv.fresh i (Nat.le_refl i) hi
  have hpar_i : (nodeAt p i).parent = none := by rw [hfreshi]; rfl
  have hsame := mergedPool_same p i j1 j2 hj1i hj2i hne hleni
  have hm1 : j1 ∈ unattList p i := (mem_unattList p i j1).mpr ⟨hj1i, hp1⟩
  have hm2 : j2 ∈ (unattList p i).erase j1 :=
    (unattList_nodup p i).mem_erase_iff.mpr
      ⟨Ne.symm hne, (mem_unattList p i j2).mpr ⟨hj2i, hp2⟩⟩
  have hwt : ∀ k, k < i → (toBT i p k).wt = (nodeAt p k).weight := by
    intro k hk
    exact toBT_wt table i p inv k hk i hk
  have hrestmem : ∀ k ∈ ((unattList p i).erase j1).erase j2,
      k < i ∧ (nodeAt p k).parent = none ∧ k ≠ j1 := by
    intro k hk
    have hk1 : k ∈ (unattList p i).erase j1 := List.mem_of_mem_erase hk
    have hk2 : k ≠ j1 ∧ k ∈ unattList p i :=
      (unattList_nodup p i).mem_erase_iff.mp hk1
    obtain ⟨hki, hkp⟩ := (mem_unattList p i k).mp hk2.2
    exact ⟨hki, hkp, hk2.1⟩
  -- agreement between p and the merged pool on small slots
  have hagree : ∀ k, k < i → ∀ fuel,
      toBT fuel (mergedPool p i j1 j2) k = toBT fuel p k := by
    intro k hk fuel
    exact (toBT_agree (mergedPool p i j1 j2) p
      (by
        intro j a
        constructor
        · intro h
          by_cases hji : j = i
          · rw [hji, mergedPool_at_i p i j1 j2 hleni] at h
            have : some j1 = some a := h
            cases this
            omega
          · obtain ⟨hl, _, _⟩ := hsame j hji
            exact (hcl j a).1 (by rw [← hl]; exact h)
        · intro h
          by_cases hji : j = i
          · rw [hji, mergedPool_at_i p i j1 j2 hleni] at h
            have : some j2 = some a := h
            cases this
            omega
          · obtain ⟨_, hr, _⟩ := hsame j hji
            exact (hcl j a).2 (by rw [← hr]; exact h))
      fuel k
      (by
        intro m hm
        obtain ⟨hl, hr, hw⟩ := hsame m (by omega)
        exact ⟨hl, hr, hw⟩))
  refine ⟨toBT i p j1, toBT i p j2,
    ((((unattList p i).erase j1).erase j2).map (fun j => toBT i p j) : List BT),
    ?_, ?_, ?_, ?_⟩
  · -- decomposition of the current forest
    rw [forestAt]
    have hperm : List.Perm (unattList p i)
        (j1 :: j2 :: ((unattList p i).erase j1).erase j2) :=
      (List.perm_cons_erase hm1).trans ((List.perm_cons_erase hm2).cons j1)
    have := (hperm.map (fun j => toBT i p j))
    have hq : ((unattList p i).map (fun j => toBT i p j) : Multiset BT) =
        ((j1 :: j2 :: ((unattList p i).erase j1).erase j2).map
          (fun j => toBT i p j) : List BT) :=
      Quot.sound this
    rw [hq]
    rfl
  · intro u hu
    rw [Multiset.mem_cons] at hu
    rcases hu with hu | hu
    · subst hu
      rw [hwt j1 hj1i, hwt j2 hj2i]
      exact hj1min j2 hj2i hp2
    · rw [Multiset.mem_coe, List.mem_map] at hu
      obtain ⟨k, hk, rfl⟩ := hu
      obtain ⟨hki, hkp, _⟩ := hrestmem k hk
      rw [hwt j1 hj1i, hwt k hki]
      exact hj1min k hki hkp
  · intro u hu
    rw [Multiset.mem_coe, List.mem_map] at hu
    obtain ⟨k, hk, rfl⟩ := hu
    obtain ⟨hki, hkp, hkne⟩ := hrestmem k hk
    rw [hwt j2 hj2i, hwt k hki]
    exact hj2min k hki hkne hkp
  · -- the new forest
    rw [forestAt, unattList_merged p i j1 j2 hj1i hj2i hne hleni hpar_i]
    have hnd : toBT (i + 1) (mergedPool p i j1 j2) i =
        BT.nd (toBT i p j1) (toBT i p j2) := by
      have hml : (nodeAt (mergedPool p i j1 j2) i).left = some j1 := by
        rw [mergedPool_at_i p i j1 j2 hleni]
      have hmr : (nodeAt (mergedPool p i j1 j2) i).right = some j2 := by
        rw [mergedPool_at_i p i j1 j2 hleni]
      simp only [toBT, hml, hmr]
      rw [hagree j1 hj1i i, hagree j2 hj2i i]
    have hmapeq : (((unattList p i).erase j1).erase j2).map
          (fun j => toBT (i + 1) (mergedPool p i j1 j2) j) =
        (((unattList p i).erase j1).erase j2).map (fun j => toBT i p j) := by
      apply List.map_congr_left
      intro k hk
      obtain ⟨hki, _, _⟩ := hrestmem k hk
      rw [hagree k hki (i + 1)]
      exact toBT_fuel p hcl k (i + 1) i (by omega) hki
    rw [List.map_append, hmapeq]
    simp only [List.map_cons, List.map_nil]
    have : (((((unattList p i).erase j1).erase j2).map (fun j => toBT i p j)
        ++ [toBT (i + 1) (mergedPool p i j1 j2) i] : List BT) : Multiset BT) =
        toBT (i + 1) (mergedPool p i j1 j2) i ::ₘ
          ((((unattList p i).erase j1).erase j2).map (fun j => toBT i p j) : List BT) := by
      rw [← Multiset.coe_add]
      have hperm2 : List.Perm
          ((((unattList p i).erase j1).erase j2).map (fun j => toBT i p j)
            ++ [toBT (i + 1) (mergedPool p i j1 j2) i])
          (toBT (i + 1) (mergedPool p i j1 j2) i ::
            (((unattList p i).erase j1).erase j2).map (fun j => toBT i p j)) :=
        List.perm_append_singleton _ _
      exact Quot.sound hperm2
    rw [this, hnd]

theorem final_unatt (table : List (Char × Nat)) (p : List HuffmanTree)
    (hn : 1 ≤ table.length)
    (inv : LoopInv table (2 * table.length - 1) p) :
    unattList p (2 * table.length - 1) = [2 * table.length - 2] := by
  have hroot_par : (nodeAt p (2 * table.length - 2)).parent = none := by
    cases h : (nodeAt p (2 * table.length - 2)).parent with
    | none => rfl
    | some k =>
      have := inv.parent_lt _ _ h
      omega
  have hmem : 2 * table.length - 2 ∈ unattList p (2 * table.length - 1) :=
    (mem_unattList _ _ _).mpr ⟨by omega, hroot_par⟩
  have hlen1 : (unattList p (2 * table.length - 1)).length = 1 := by
    rw [inv.cnt]; omega
  cases hL : unattList p (2 * table.length - 1) with
  | nil => rw [hL] at hlen1; cases hlen1
  | cons a t =>
    rw [hL] at hlen1 hmem
    rw [List.length_cons] at hlen1
    have ht : t = [] := List.length_eq_zero.mp (by omega)
    subst ht
    have : 2 * table.length - 2 = a := by
      rcases List.mem_cons.mp hmem with h | h
      · exact h
      · cases h
    rw [this]

theorem toBT_leaf (p : List HuffmanTree) (j : Nat)
    (h : (nodeAt p j).left = none) :
    ∀ fuel, toBT fuel p j = BT.lf (nodeAt p j).weight := by
  intro fuel
  cases fuel with
  | zero => rfl
  | succ f => simp only [toBT, h]

theorem forestAt_init (table : List (Char × Nat)) (hn : 1 ≤ table.length) :
    forestAt (pool0 table) table.length =
      ((table.map (fun cw => BT.lf cw.2) : List BT) : Multiset BT) := by
  have hrange : unattList (pool0 table) table.length = List.range table.length := by
    apply List.filter_eq_self.mpr
    intro j hj
    rw [List.mem_range] at hj
    rw [decide_eq_true_eq, pool0_at table j hj hn]
    rfl
  rw [forestAt, hrange]
  have hlist : (List.range table.length).map
        (fun j => toBT table.length (pool0 table) j) =
      table.map (fun cw => BT.lf cw.2) := by
    apply List.ext_get
    · rw [List.length_map, List.length_range, List.length_map]
    · intro k h1 h2
      rw [List.length_map, List.length_range] at h1
      simp only [List.get_map, List.get_range]
      have hc := pool0_at table k h1 hn
      rw [toBT_leaf (pool0 table) k (by rw [hc]; rfl), hc]
  rw [hlist]

/-- The entire merge loop is a run of the abstract Huffman algorithm from
the stage-`i` forest to the final tree. -/
theorem run_to_final (table : List (Char × Nat)) (hn : 1 ≤ table.length)
    (hW : totalW table < U64MAX) (pfin : List HuffmanTree)
    (hfin : loopTo table (2 * table.length - 1) = some pfin) :
    ∀ k i, i + k = 2 * table.length - 1 → table.length ≤ i →
      ∀ p, loopTo table i = some p → LoopInv table i p →
        HuffRun (forestAt p i)
          (toBT (2 * table.length - 1) pfin (2 * table.length - 2)) := by
  intro k
  induction k with
  | zero =>
    intro i hik hni p hp inv
    have hieq : i = 2 * table.length - 1 := by omega
    subst hieq
    have hpp : p = pfin := by
      rw [hp] at hfin
      exact Option.some.inj hfin
    subst hpp
    rw [forestAt, final_unatt table p hn inv]
    exact HuffRun.single _
  | succ k ih =>
    intro i hik hni p hp inv
    have hi : i < 2 * table.length - 1 := by omega
    obtain ⟨j1, j2, hfm1, hfm2, hj1i, hj2i, hne, hp1, hp2,
      hj1min, hj1first, hj2min, hj2first, hstep⟩ := step_spec table i p inv hW hi
    have hw12 : (nodeAt p j1).weight ≤ (nodeAt p j2).weight := hj1min j2 hj2i hp2
    have hinv2 := step_inv table i p inv hi j1 j2 hj1i hj2i hne hp1 hp2 hw12
    have hnext : loopTo table (i + 1) = some (mergedPool p i j1 j2) := by
      rw [loopTo_succ table i hni, hp]
      exact hstep
    have htm := forest_step table i p inv hi j1 j2 hj1i hj2i hne hp1 hp2
      hj1min hj2min
    exact HuffRun.step htm (ih (i + 1) (by omega) (by omega) _ hnext hinv2)

theorem build_eq_loopTo (table : List (Char × Nat)) (hn : 1 ≤ table.length) :
    HuffmanTree.build table =
      (loopTo table (2 * table.length - 1)).map
        (fun p => (p, 2 * table.length - 2)) := by
  simp only [HuffmanTree.build, loopTo]
  rw [if_neg (show ¬ table.length = 0 by omega)]
  cases h : buildLoop (pool0 table) table.length
      (2 * table.length - 1 - table.length) with
  | none => rfl
  | some p =>
    rw [show 2 * table.length - 1 - 1 = 2 * table.length - 2 by omega]
    rfl

/-- On a nonempty table of total weight below `u64::MAX`, the build
succeeds, returning the final pool (satisfying the invariant) and the root
slot `2n - 2`. -/
theorem build_some (table : List (Char × Nat)) (hn : 1 ≤ table.length)
    (hW : totalW table < U64MAX) :
    ∃ p, HuffmanTree.build table = some (p, 2 * table.length - 2) ∧
      loopTo table (2 * table.length - 1) = some p ∧
      LoopInv table (2 * table.length - 1) p := by
  obtain ⟨p, hp, inv⟩ :=
    loopTo_inv table hn hW (2 * table.length - 1) (by omega) (Nat.le_refl _)
  refine ⟨p, ?_, hp, inv⟩
  rw [build_eq_loopTo table hn, hp]
  rfl

/-! ## Leaf accounting along a run -/

theorem huffRun_leaves {F : Multiset BT} {T : BT} (h : HuffRun F T) :
    T.leaves = (F.map BT.leaves).sum := by
  induction h with
  | single t => simp
  | step htm hrun ih =>
    obtain ⟨t1, t2, G, hF, _, _, hF2⟩ := htm
    rw [hF2] at ih
    rw [hF, ih]
    simp only [Multiset.map_cons, Multiset.sum_cons, BT.leaves]
    rw [add_assoc]

theorem BT.ndCount_add_one (t : BT) : t.ndCount + 1 = t.leafCount := by
  induction t with
  | lf w => rfl
  | nd l r ihl ihr => simp only [BT.ndCount, BT.leafCount]; omega

theorem BT.size_eq (t : BT) : t.size = t.leafCount + t.ndCount := by
  induction t with
  | lf w => rfl
  | nd l r ihl ihr => simp only [BT.size, BT.leafCount, BT.ndCount]; omega

theorem BT.leafCount_eq_card (t : BT) : t.leafCount = Multiset.card t.leaves := by
  induction t with
  | lf w => rfl
  | nd l r ihl ihr => simp only [BT.leafCount, BT.leaves, Multiset.card_add, ihl, ihr]

theorem leaves_init_sum (table : List (Char × Nat)) :
    ((((table.map (fun cw => BT.lf cw.2) : List BT) : Multiset BT)).map BT.leaves).sum =
      ((table.map Prod.snd : List Nat) : Multiset Nat) := by
  induction table with
  | nil => rfl
  | cons cw rest ih =>
    simp only [List.map_cons, ← Multiset.cons_coe, Multiset.map_cons,
      Multiset.sum_cons, ih]
    rw [show BT.leaves (BT.lf cw.2) = {cw.2} from rfl, Multiset.singleton_add]

/-- The final tree of a successful build carries exactly the table's
weights as leaf multiset. -/
theorem final_tree_leaves (table : List (Char × Nat)) (hn : 1 ≤ table.length)
    (hW : totalW table < U64MAX) (p : List HuffmanTree)
    (hfin : loopTo table (2 * table.length - 1) = some p)
    (inv : LoopInv table (2 * table.length - 1) p) :
    (toBT (2 * table.length - 1) p (2 * table.length - 2)).leaves =
      ((table.map Prod.snd : List Nat) : Multiset Nat) := by
  have hrun := run_to_final table hn hW p hfin (2 * table.length - 1 - table.length)
    table.length (by omega) (Nat.le_refl _) (pool0 table) (loopTo_init table)
    (loopInv_init table hn)
  have hlv := huffRun_leaves hrun
  rw [forestAt_init table hn] at hlv
  rw [hlv, leaves_init_sum]

/-- The run of the build on the initial forest, packaged. -/
theorem build_run (table : List (Char × Nat)) (hn : 1 ≤ table.length)
    (hW : totalW table < U64MAX) (p : List HuffmanTree)
    (hfin : loopTo table (2 * table.length - 1) = some p) :
    HuffRun ((table.map (fun cw => BT.lf cw.2) : List BT) : Multiset BT)
      (toBT (2 * table.length - 1) p (2 * table.length - 2)) := by
  have hrun := run_to_final table hn hW p hfin (2 * table.length - 1 - table.length)
    table.length (by omega) (Nat.le_refl _) (pool0 table) (loopTo_init table)
    (loopInv_init table hn)
  rw [forestAt_init table hn] at hrun
  exact hrun

/-! ## Total weight of a faithful frequency table -/

theorem length_count_filter (l : List Char) (k : Char) :
    l.length = l.count k + (l.filter (fun c => c ≠ k)).length := by
  induction l with
  | nil => rfl
  | cons c t ih =>
    by_cases hc : c = k
    · subst hc
      simp [List.count_cons, List.filter_cons, ih]
      omega
    · simp [List.count_cons, List.filter_cons, hc, ih]
      omega

theorem count_filter_ne (l : List Char) (a k : Char) (h : a ≠ k) :
    (l.filter (fun c => c ≠ k)).count a = l.count a := by
  rw [List.count_filter]
  simp [h]

theorem count_sum_length :
    ∀ (keys : List Char) (input : List Char), keys.Nodup →
      (∀ c ∈ input, c ∈ keys) →
      (keys.map (fun c => input.count c)).sum = input.length := by
  intro keys
  induction keys with
  | nil =>
    intro input _ hcov
    cases input with
    | nil => rfl
    | cons c rest => exact absurd (hcov c (List.mem_cons_self c rest)) (List.not_mem_nil c)
  | cons k ks ih =>
    intro input hnd hcov
    simp only [List.map_cons, List.sum_cons]
    obtain ⟨hknot, hksnd⟩ := List.nodup_cons.mp hnd
    have hcount : ∀ c ∈ ks,
        input.count c = (input.filter (fun c2 => c2 ≠ k)).count c := by
      intro c hc
      have hck : c ≠ k := fun h => hknot (h ▸ hc)
      exact (count_filter_ne input c k hck).symm
    have hmape : ks.map (fun c => input.count c) =
        ks.map (fun c => (input.filter (fun c2 => c2 ≠ k)).count c) :=
      List.map_congr_left hcount
    have hcov2 : ∀ c ∈ input.filter (fun c2 => c2 ≠ k), c ∈ ks := by
      intro c hc
      have h1 : c ∈ input := List.mem_of_mem_filter hc
      have h2 : c ≠ k := by
        have := List.of_mem_filter hc
        simpa using this
      rcases List.mem_cons.mp (hcov c h1) with h | h
      · exact absurd h h2
      · exact h
    have hih := ih (input.filter (fun c2 => c2 ≠ k)) hksnd hcov2
    rw [hmape, hih]
    have := length_count_filter input k
    omega

theorem totalW_eq (input : List Char) (table : List (Char × Nat))
    (h : IsCWM input table) : totalW table = input.length := by
  obtain ⟨hnd, hmem, hcnt⟩ := h
  have h1 : table.map Prod.snd = (table.map Prod.fst).map (fun c => input.count c) := by
    rw [List.map_map]
    exact List.map_congr_left (fun cw hcw => hcnt cw hcw)
  rw [totalW, h1]
  exact count_sum_length (table.map Prod.fst) input hnd (fun c hc => (hmem c).mpr hc)

theorem IsCWM_nonempty (input : List Char) (table : List (Char × Nat))
    (h : IsCWM input table) (hne : input ≠ []) : 1 ≤ table.length := by
  cases input with
  | nil => exact absurd rfl hne
  | cons c rest =>
    have hmem : c ∈ table.map Prod.fst :=
      (h.2.1 c).mpr (List.mem_cons_self c rest)
    obtain ⟨cw, hcw, _⟩ := List.mem_map.mp hmem
    exact List.length_pos.mpr (List.ne_nil_of_mem hcw)

/-! ## C9: the unwraps never panic -/

/-- C9: for a table with at least one entry, all weights at least 1 and
total weight below `u64::MAX`, at the start of the merge for every slot
`i` exactly `2n - i` slots are unattached (at least 2), both `find_min`
calls of the iteration return `Some`, and the whole build returns a value
— so the two `.unwrap()` calls in `HuffmanTree::build` never panic. -/
theorem build_unwraps_safe (table : List (Char × Nat)) (hn : table ≠ [])
    (hw1 : ∀ cw ∈ table, 1 ≤ cw.2) (hW : totalW table < U64MAX) :
    (∀ i, table.length ≤ i → i < 2 * table.length - 1 →
      ∃ p, loopTo table i = some p ∧
        (unattList p i).length = 2 * table.length - i ∧
        2 ≤ (unattList p i).length ∧
        ∃ j1 j2, HuffmanTree.find_min (p.take i) = some j1 ∧
          HuffmanTree.find_min ((setParent p j1 i).take i) = some j2) ∧
    ∃ pr, HuffmanTree.build table = some pr := by
  have hn1 : 1 ≤ table.length := List.length_pos.mpr hn
  constructor
  · intro i hni hi
    obtain ⟨p, hp, inv⟩ := loopTo_inv table hn1 hW i hni (by omega)
    obtain ⟨j1, j2, hfm1, hfm2, _⟩ := step_spec table i p inv hW hi
    exact ⟨p, hp, inv.cnt, by rw [inv.cnt]; omega, j1, j2, hfm1, hfm2⟩
  · obtain ⟨p, hp, _, _⟩ := build_some table hn1 hW
    exact ⟨(p, 2 * table.length - 2), hp⟩

/-- Witness for C9 at the table of the text `aaabb`. -/
theorem build_unwraps_safe_witness :
    (([(('a' : Char), 3), ('b', 2)] : List (Char × Nat)) ≠ [] ∧
      (∀ cw ∈ ([(('a' : Char), 3), ('b', 2)] : List (Char × Nat)), 1 ≤ cw.2) ∧
      totalW [('a', 3), ('b', 2)] < U64MAX) ∧
    ((∀ i, ([(('a' : Char), 3), ('b', 2)] : List (Char × Nat)).length ≤ i →
      i < 2 * ([(('a' : Char), 3), ('b', 2)] : List (Char × Nat)).length - 1 →
      ∃ p, loopTo [('a', 3), ('b', 2)] i = some p ∧
        (unattList p i).length =
          2 * ([(('a' : Char), 3), ('b', 2)] : List (Char × Nat)).length - i ∧
        2 ≤ (unattList p i).length ∧
        ∃ j1 j2, HuffmanTree.find_min (p.take i) = some j1 ∧
          HuffmanTree.find_min ((setParent p j1 i).take i) = some j2) ∧
      ∃ pr, HuffmanTree.build [('a', 3), ('b', 2)] = some pr) :=
  ⟨⟨by decide, by decide, by decide⟩,
    build_unwraps_safe [('a', 3), ('b', 2)] (by decide) (by decide) (by decide)⟩

/-! ## C10: left child weight bounded by right child weight -/

/-- C10: in every tree returned by `HuffmanTree::build` (nonempty table,
total weight below `u64::MAX`), every node with children satisfies
left-child weight at most right-child weight: the first-selected minimum
`m1` becomes the left child and the second minimum `m2` the right one. -/
theorem build_left_le_right (table : List (Char × Nat)) (hn : table ≠ [])
    (hW : totalW table < U64MAX) :
    ∃ p, HuffmanTree.build table = some (p, 2 * table.length - 2) ∧
      ∀ j a b, (nodeAt p j).left = some a → (nodeAt p j).right = some b →
        (nodeAt p a).weight ≤ (nodeAt p b).weight := by
  have hn1 : 1 ≤ table.length := List.length_pos.mpr hn
  obtain ⟨p, hp, _, inv⟩ := build_some table hn1 hW
  refine ⟨p, hp, ?_⟩
  intro j a b hl hr
  rcases Nat.lt_or_ge j table.length with hj | hj
  · obtain ⟨_, _, hl0, _⟩ := inv.leaf j hj
    rw [hl0] at hl
    cases hl
  · rcases Nat.lt_or_ge j (2 * table.length - 1) with hj2 | hj2
    · obtain ⟨_, a0, b0, hl0, hr0, _, _, _, _, hord⟩ := inv.internal j hj hj2
      have haa : a0 = a := Option.some.inj (hl0.symm.trans hl)
      have hbb : b0 = b := Option.some.inj (hr0.symm.trans hr)
      subst haa
      subst hbb
      exact hord
    · rw [nodeAt_ge_len p j (by rw [inv.len]; exact hj2)] at hl
      cases hl

/-- Witness for C10. -/
theorem build_left_le_right_witness :
    (([(('a' : Char), 3), ('b', 2)] : List (Char × Nat)) ≠ [] ∧
      totalW [('a', 3), ('b', 2)] < U64MAX) ∧
    ∃ p, HuffmanTree.build [('a', 3), ('b', 2)] =
        some (p, 2 * ([(('a' : Char), 3), ('b', 2)] : List (Char × Nat)).length - 2) ∧
      ∀ j a b, (nodeAt p j).left = some a → (nodeAt p j).right = some b →
        (nodeAt p a).weight ≤ (nodeAt p b).weight :=
  ⟨⟨by decide, by decide⟩,
    build_left_le_right [('a', 3), ('b', 2)] (by decide) (by decide)⟩

/-! ## C4: weights are consistent and the root carries the text length -/

/-- C4: for every nonempty input text (of machine-representable length)
and every faithful iteration sequence of its `CharWeightMap`, the built
tree satisfies: every node with two children stores the sum of its
children's weights, and the root's weight is the length of the input text
in characters. -/
theorem build_weights_consistent (input : List Char) (table : List (Char × Nat))
    (hcwm : IsCWM input table) (hne : input ≠ [])
    (hlen : input.length < U64MAX) :
    ∃ p, HuffmanTree.build table = some (p, 2 * table.length - 2) ∧
      (∀ j a b, (nodeAt p j).left = some a → (nodeAt p j).right = some b →
        (nodeAt p j).weight = (nodeAt p a).weight + (nodeAt p b).weight) ∧
      (nodeAt p (2 * table.length - 2)).weight = input.length := by
  have hn1 : 1 ≤ table.length := IsCWM_nonempty input table hcwm hne
  have hW : totalW table < U64MAX := by
    rw [totalW_eq input table hcwm]
    exact hlen
  obtain ⟨p, hp, _, inv⟩ := build_some table hn1 hW
  refine ⟨p, hp, ?_, ?_⟩
  · intro j a b hl hr
    rcases Nat.lt_or_ge j table.length with hj | hj
    · obtain ⟨_, _, hl0, _⟩ := inv.leaf j hj
      rw [hl0] at hl
      cases hl
    · rcases Nat.lt_or_ge j (2 * table.length - 1) with hj2 | hj2
      · obtain ⟨_, a0, b0, hl0, hr0, _, _, _, hwt, _⟩ := inv.internal j hj hj2
        have haa : a0 = a := Option.some.inj (hl0.symm.trans hl)
        have hbb : b0 = b := Option.some.inj (hr0.symm.trans hr)
        subst haa
        subst hbb
        exact hwt
      · rw [nodeAt_ge_len p j (by rw [inv.len]; exact hj2)] at hl
        cases hl
  · have hu := final_unatt table p hn1 inv
    have hs := inv.wsum
    rw [hu] at hs
    simp only [List.map_cons, List.map_nil, List.sum_cons, List.sum_nil,
      Nat.add_zero] at hs
    rw [hs, totalW_eq input table hcwm]

/-- Witness for C4 at the text `aaabb` with the canonical iteration
order. -/
theorem build_weights_consistent_witness :
    (IsCWM ['a', 'a', 'a', 'b', 'b'] (CharWeightMap.build ['a', 'a', 'a', 'b', 'b']) ∧
      (['a', 'a', 'a', 'b', 'b'] : List Char) ≠ [] ∧
      (['a', 'a', 'a', 'b', 'b'] : List Char).length < U64MAX) ∧
    ∃ p, HuffmanTree.build (CharWeightMap.build ['a', 'a', 'a', 'b', 'b']) =
        some (p, 2 * (CharWeightMap.build ['a', 'a', 'a', 'b', 'b']).length - 2) ∧
      (∀ j a b, (nodeAt p j).left = some a → (nodeAt p j).right = some b →
        (nodeAt p j).weight = (nodeAt p a).weight + (nodeAt p b).weight) ∧
      (nodeAt p (2 * (CharWeightMap.build ['a', 'a', 'a', 'b', 'b']).length - 2)).weight =
        (['a', 'a', 'a', 'b', 'b'] : List Char).length :=
  ⟨⟨by decide, by decide, by decide⟩,
    build_weights_consistent ['a', 'a', 'a', 'b', 'b'] _ (by decide) (by decide) (by decide)⟩

/-! ## C5: node counts -/

/-- C5: for every table with `n ≥ 1` entries (total weight below
`u64::MAX`), the tree returned by `HuffmanTree::build` has exactly
`2n - 1` nodes: `n` leaves and `n - 1` internal nodes.  In the pool, the
leaf slots are exactly those carrying a character value and no children,
and the internal slots carry no character value and two children. -/
theorem build_node_counts (table : List (Char × Nat)) (hn : table ≠ [])
    (hW : totalW table < U64MAX) :
    ∃ p, HuffmanTree.build table = some (p, 2 * table.length - 2) ∧
      p.length = 2 * table.length - 1 ∧
      (toBT (2 * table.length - 1) p (2 * table.length - 2)).size =
        2 * table.length - 1 ∧
      (toBT (2 * table.length - 1) p (2 * table.length - 2)).leafCount =
        table.length ∧
      (toBT (2 * table.length - 1) p (2 * table.length - 2)).ndCount =
        table.length - 1 ∧
      (∀ j, j < table.length → (nodeAt p j).value.isSome = true ∧
        (nodeAt p j).left = none ∧ (nodeAt p j).right = none) ∧
      (∀ j, table.length ≤ j → j < 2 * table.length - 1 →
        (nodeAt p j).value = none ∧ (nodeAt p j).left.isSome = true ∧
        (nodeAt p j).right.isSome = true) := by
  have hn1 : 1 ≤ table.length := List.length_pos.mpr hn
  obtain ⟨p, hp, hloop, inv⟩ := build_some table hn1 hW
  have hlv := final_tree_leaves table hn1 hW p hloop inv
  have hcard : (toBT (2 * table.length - 1) p (2 * table.length - 2)).leafCount =
      table.length := by
    rw [BT.leafCount_eq_card, hlv, Multiset.coe_card, List.length_map]
  refine ⟨p, hp, inv.len, ?_, hcard, ?_, ?_, ?_⟩
  · rw [BT.size_eq, hcard]
    have := BT.ndCount_add_one (toBT (2 * table.length - 1) p (2 * table.length - 2))
    omega
  · have := BT.ndCount_add_one (toBT (2 * table.length - 1) p (2 * table.length - 2))
    omega
  · intro j hj
    obtain ⟨hv, _, hl, hr⟩ := inv.leaf j hj
    exact ⟨by rw [hv]; rfl, hl, hr⟩
  · intro j hjlo hjhi
    obtain ⟨hv, a, b, hl, hr, _⟩ := inv.internal j hjlo hjhi
    exact ⟨hv, by rw [hl]; rfl, by rw [hr]; rfl⟩

/-- Witness for C5. -/
theorem build_node_counts_witness :
    (([(('a' : Char), 3), ('b', 2)] : List (Char × Nat)) ≠ [] ∧
      totalW [('a', 3), ('b', 2)] < U64MAX) ∧
    ∃ p, HuffmanTree.build [('a', 3), ('b', 2)] =
        some (p, 2 * ([(('a' : Char), 3), ('b', 2)] : List (Char × Nat)).length - 2) ∧
      p.length = 2 * ([(('a' : Char), 3), ('b', 2)] : List (Char × Nat)).length - 1 ∧
      (toBT (2 * ([(('a' : Char), 3), ('b', 2)] : List (Char × Nat)).length - 1) p
          (2 * ([(('a' : Char), 3), ('b', 2)] : List (Char × Nat)).length - 2)).size =
        2 * ([(('a' : Char), 3), ('b', 2)] : List (Char × Nat)).length - 1 ∧
      (toBT (2 * ([(('a' : Char), 3), ('b', 2)] : List (Char × Nat)).length - 1) p
          (2 * ([(('a' : Char), 3), ('b', 2)] : List (Char × Nat)).length - 2)).leafCount =
        ([(('a' : Char), 3), ('b', 2)] : List (Char × Nat)).length ∧
      (toBT (2 * ([(('a' : Char), 3), ('b', 2)] : List (Char × Nat)).length - 1) p
          (2 * ([(('a' : Char), 3), ('b', 2)] : List (Char × Nat)).length - 2)).ndCount =
        ([(('a' : Char), 3), ('b', 2)] : List (Char × Nat)).length - 1 ∧
      (∀ j, j < ([(('a' : Char), 3), ('b', 2)] : List (Char × Nat)).length →
        (nodeAt p j).value.isSome = true ∧
        (nodeAt p j).left = none ∧ (nodeAt p j).right = none) ∧
      (∀ j, ([(('a' : Char), 3), ('b', 2)] : List (Char × Nat)).length ≤ j →
        j < 2 * ([(('a' : Char), 3), ('b', 2)] : List (Char × Nat)).length - 1 →
        (nodeAt p j).value = none ∧ (nodeAt p j).left.isSome = true ∧
        (nodeAt p j).right.isSome = true) :=
  ⟨⟨by decide, by decide⟩,
    build_node_counts [('a', 3), ('b', 2)] (by decide) (by decide)⟩

/-- Parent marks are permanent: once a slot's parent is set, it keeps that
value in every later loop state. -/
theorem loopTo_parent_persist (table : List (Char × Nat)) (hn : 1 ≤ table.length)
    (hW : totalW table < U64MAX) (i : Nat) (hni : table.length ≤ i) :
    ∀ i', i ≤ i' → i' ≤ 2 * table.length - 1 →
      ∀ p p', loopTo table i = some p → loopTo table i' = some p' →
        ∀ k v, (nodeAt p k).parent = some v → (nodeAt p' k).parent = some v := by
  intro i' hii
  induction i', hii using Nat.le_induction with
  | base =>
    intro _ p p' hp hp' k v hk
    rw [hp] at hp'
    cases Option.some.inj hp'
    exact hk
  | succ i' hii ih =>
    intro hle p p' hp hp' k v hk
    have hi' : i' < 2 * table.length - 1 := by omega
    obtain ⟨q, hq, invq⟩ := loopTo_inv table hn hW i' (by omega) (by omega)
    obtain ⟨j1, j2, _, _, hj1i, hj2i, hne, hpar1, hpar2, _, _, _, _, hstep⟩ :=
      step_spec table i' q invq hW hi'
    have hp'eq : p' = mergedPool q i' j1 j2 := by
      rw [loopTo_succ table i' (by omega), hq] at hp'
      simp only [Option.some_bind] at hp'
      rw [hstep] at hp'
      exact Option.some.inj hp'.symm
    have hkq : (nodeAt q k).parent = some v := ih (by omega) p q hp hq k v hk
    have hk1 : k ≠ j1 := fun h => by rw [h, hpar1] at hkq; cases hkq
    have hk2 : k ≠ j2 := fun h => by rw [h, hpar2] at hkq; cases hkq
    have hki : k ≠ i' := by
      intro h
      have hfreshi : nodeAt q i' = HuffmanTree.new :=
        invq.fresh i' (Nat.le_refl i') hi'
      rw [h, hfreshi] at hkq
      cases hkq
    rw [hp'eq, mergedPool_at_other q i' j1 j2 k hk1 hk2 hki]
    exact hkq

/-- C3: at every merge step for slot `i`, the first pick `m1` is an
unattached node of minimum weight among slots `[0, i)` and, among the
minima, the one with the lowest slot index; the second pick `m2` is the
same among those slots excluding `m1`; parent marks persist forever, and
`find_min` only ever returns unattached nodes — so a node consumed as a
child is never selected again in any later step. -/
theorem merge_selection_policy (table : List (Char × Nat)) (hn : table ≠ [])
    (hW : totalW table < U64MAX) :
    (∀ i, table.length ≤ i → i < 2 * table.length - 1 →
      ∃ p j1 j2, loopTo table i = some p ∧
        HuffmanTree.find_min (p.take i) = some j1 ∧
        HuffmanTree.find_min ((setParent p j1 i).take i) = some j2 ∧
        j1 < i ∧ (nodeAt p j1).parent = none ∧
        (∀ k, k < i → (nodeAt p k).parent = none →
          (nodeAt p j1).weight ≤ (nodeAt p k).weight) ∧
        (∀ k, k < j1 → (nodeAt p k).parent = none →
          (nodeAt p j1).weight < (nodeAt p k).weight) ∧
        j2 < i ∧ j2 ≠ j1 ∧ (nodeAt p j2).parent = none ∧
        (∀ k, k < i → k ≠ j1 → (nodeAt p k).parent = none →
          (nodeAt p j2).weight ≤ (nodeAt p k).weight) ∧
        (∀ k, k < j2 → k ≠ j1 → (nodeAt p k).parent = none →
          (nodeAt p j2).weight < (nodeAt p k).weight) ∧
        (∀ i' p', i ≤ i' → i' ≤ 2 * table.length - 1 →
          loopTo table i' = some p' →
          ∀ k v, (nodeAt p k).parent = some v → (nodeAt p' k).parent = some v)) ∧
    (∀ (slice : List HuffmanTree) (j : Nat),
      HuffmanTree.find_min slice = some j → (nodeAt slice j).parent = none) := by
  have hn1 : 1 ≤ table.length := List.length_pos.mpr hn
  constructor
  · intro i hni hi
    obtain ⟨p, hp, inv⟩ := loopTo_inv table hn1 hW i hni (by omega)
    obtain ⟨j1, j2, hfm1, hfm2, hj1i, hj2i, hne, hpar1, hpar2,
      hj1min, hj1first, hj2min, hj2first, _⟩ := step_spec table i p inv hW hi
    exact ⟨p, j1, j2, hp, hfm1, hfm2, hj1i, hpar1, hj1min, hj1first,
      hj2i, Ne.symm hne, hpar2, hj2min, hj2first,
      fun i' p' hii' hle hp' =>
        loopTo_parent_persist table hn1 hW i hni i' hii' hle p p' hp hp'⟩
  · intro slice j h
    exact (find_min_some_spec slice j h).2.1

/-- Witness for C3 at the table of the text `aaabb`. -/
theorem merge_selection_policy_witness :
    (([(('a' : Char), 3), ('b', 2)] : List (Char × Nat)) ≠ [] ∧
      totalW [('a', 3), ('b', 2)] < U64MAX) ∧
    ((∀ i, ([(('a' : Char), 3), ('b', 2)] : List (Char × Nat)).length ≤ i →
      i < 2 * ([(('a' : Char), 3), ('b', 2)] : List (Char × Nat)).length - 1 →
      ∃ p j1 j2, loopTo [('a', 3), ('b', 2)] i = some p ∧
        HuffmanTree.find_min (p.take i) = some j1 ∧
        HuffmanTree.find_min ((setParent p j1 i).take i) = some j2 ∧
        j1 < i ∧ (nodeAt p j1).parent = none ∧
        (∀ k, k < i → (nodeAt p k).parent = none →
          (nodeAt p j1).weight ≤ (nodeAt p k).weight) ∧
        (∀ k, k < j1 → (nodeAt p k).parent = none →
          (nodeAt p j1).weight < (nodeAt p k).weight) ∧
        j2 < i ∧ j2 ≠ j1 ∧ (nodeAt p j2).parent = none ∧
        (∀ k, k < i → k ≠ j1 → (nodeAt p k).parent = none →
          (nodeAt p j2).weight ≤ (nodeAt p k).weight) ∧
        (∀ k, k < j2 → k ≠ j1 → (nodeAt p k).parent = none →
          (nodeAt p j2).weight < (nodeAt p k).weight) ∧
        (∀ i' p', i ≤ i' →
          i' ≤ 2 * ([(('a' : Char), 3), ('b', 2)] : List (Char × Nat)).length - 1 →
          loopTo [('a', 3), ('b', 2)] i' = some p' →
          ∀ k v, (nodeAt p k).parent = some v → (nodeAt p' k).parent = some v)) ∧
    (∀ (slice : List HuffmanTree) (j : Nat),
      HuffmanTree.find_min slice = some j → (nodeAt slice j).parent = none)) :=
  ⟨⟨by decide, by decide⟩,
    merge_selection_policy [('a', 3), ('b', 2)] (by decide) (by decide)⟩

/-! ## Paths in full binary trees -/

theorem sub_nil (t : BT) : sub t [] = some t := by cases t <;> rfl

theorem repl_nil (t s : BT) : repl t [] s = s := by cases t <;> rfl

theorem wt_repl (q : List Bool) :
    ∀ (t u s : BT), sub t q = some u →
      (repl t q s).wt + u.wt = t.wt + s.wt := by
  induction q with
  | nil =>
    intro t u s h
    rw [sub_nil] at h
    cases Option.some.inj h
    rw [repl_nil]
    omega
  | cons bit q ih =>
    intro t u s h
    cases t with
    | lf w => cases h
    | nd l r =>
      cases bit with
      | false =>
        rw [sub] at h
        rw [repl]
        have := ih l u s h
        simp only [BT.wt] at *
        omega
      | true =>
        rw [sub] at h
        rw [repl]
        have := ih r u s h
        simp only [BT.wt] at *
        omega

theorem cost_repl (q : List Bool) :
    ∀ (t u s : BT), sub t q = some u →
      (repl t q s).cost + u.cost + q.length * u.wt =
        t.cost + s.cost + q.length * s.wt := by
  induction q with
  | nil =>
    intro t u s h
    rw [sub_nil] at h
    cases Option.some.inj h
    rw [repl_nil]
    simp only [List.length_nil]
    omega
  | cons bit q ih =>
    intro t u s h
    cases t with
    | lf w => cases h
    | nd l r =>
      cases bit with
      | false =>
        rw [sub] at h
        rw [repl]
        have h1 := ih l u s h
        have h2 := wt_repl q l u s h
        simp only [BT.cost, BT.wt, List.length_cons] at *
        nlinarith [h1, h2]
      | true =>
        rw [sub] at h
        rw [repl]
        have h1 := ih r u s h
        have h2 := wt_repl q r u s h
        simp only [BT.cost, BT.wt, List.length_cons] at *
        nlinarith [h1, h2]

theorem leaves_repl (q : List Bool) :
    ∀ (t u s : BT), sub t q = some u →
      (repl t q s).leaves + u.leaves = t.leaves + s.leaves := by
  induction q with
  | nil =>
    intro t u s h
    rw [sub_nil] at h
    cases Option.some.inj h
    rw [repl_nil]
    exact add_comm _ _
  | cons bit q ih =>
    intro t u s h
    cases t with
    | lf w => cases h
    | nd l r =>
      cases bit with
      | false =>
        rw [sub] at h
        rw [repl]
        have h1 := ih l u s h
        simp only [BT.leaves]
        calc (repl l q s).leaves + r.leaves + u.leaves
            = (repl l q s).leaves + u.leaves + r.leaves := by
              rw [add_right_comm]
          _ = l.leaves + s.leaves + r.leaves := by rw [h1]
          _ = l.leaves + r.leaves + s.leaves := by rw [add_right_comm]
      | true =>
        rw [sub] at h
        rw [repl]
        have h1 := ih r u s h
        simp only [BT.leaves]
        calc l.leaves + (repl r q s).leaves + u.leaves
            = l.leaves + ((repl r q s).leaves + u.leaves) := by rw [add_assoc]
          _ = l.leaves + (r.leaves + s.leaves) := by rw [h1]
          _ = l.leaves + r.leaves + s.leaves := by rw [add_assoc]

theorem sub_repl_self (q : List Bool) :
    ∀ (t u s : BT), sub t q = some u → sub (repl t q s) q = some s := by
  induction q with
  | nil => intro t u s _; rw [repl_nil, sub_nil]
  | cons bit q ih =>
    intro t u s h
    cases t with
    | lf w => cases h
    | nd l r =>
      cases bit with
      | false => rw [sub] at h; rw [repl, sub]; exact ih l u s h
      | true => rw [sub] at h; rw [repl, sub]; exact ih r u s h

theorem sub_repl_diverge (c : List Bool) :
    ∀ (p2 q2 : List Bool) (t s : BT),
      sub (repl t (c ++ (false :: p2)) s) (c ++ (true :: q2)) =
        sub t (c ++ (true :: q2)) ∧
      sub (repl t (c ++ (true :: q2)) s) (c ++ (false :: p2)) =
        sub t (c ++ (false :: p2)) := by
  induction c with
  | nil =>
    intro p2 q2 t s
    cases t with
    | lf w => exact ⟨rfl, rfl⟩
    | nd l r => exact ⟨rfl, rfl⟩
  | cons bit c ih =>
    intro p2 q2 t s
    cases t with
    | lf w => exact ⟨rfl, rfl⟩
    | nd l r =>
      cases bit with
      | false =>
        simp only [List.cons_append, repl, sub]
        exact ih p2 q2 l s
      | true =>
        simp only [List.cons_append, repl, sub]
        exact ih p2 q2 r s

theorem sub_repl_div (q1 q2 : List Bool) (t s : BT) (hd : PathDiv q1 q2) :
    sub (repl t q1 s) q2 = sub t q2 := by
  rcases hd with ⟨c, p2, r2, hp, hq⟩ | ⟨c, p2, r2, hp, hq⟩
  · rw [hp, hq]
    exact (sub_repl_diverge c p2 r2 t s).1
  · rw [hp, hq]
    exact (sub_repl_diverge c p2 r2 t s).2

theorem sub_append (q1 : List Bool) :
    ∀ (q2 : List Bool) (t : BT),
      sub t (q1 ++ q2) = (sub t q1).bind (fun u => sub u q2) := by
  induction q1 with
  | nil =>
    intro q2 t
    rw [List.nil_append, sub_nil, Option.some_bind]
  | cons bit q1 ih =>
    intro q2 t
    cases t with
    | lf w => rfl
    | nd l r =>
      cases bit with
      | false => rw [List.cons_append, sub, sub]; exact ih q2 l
      | true => rw [List.cons_append, sub, sub]; exact ih q2 r

theorem path_trichotomy :
    ∀ (q1 q2 : List Bool), q1 = q2 ∨
      (∃ r, r ≠ [] ∧ q1 ++ r = q2) ∨ (∃ r, r ≠ [] ∧ q2 ++ r = q1) ∨
      Diverge q1 q2 ∨ Diverge q2 q1 := by
  intro q1
  induction q1 with
  | nil =>
    intro q2
    cases q2 with
    | nil => exact Or.inl rfl
    | cons b2 t2 =>
      exact Or.inr (Or.inl ⟨b2 :: t2, List.cons_ne_nil b2 t2, List.nil_append _⟩)
  | cons b1 t1 ih =>
    intro q2
    cases q2 with
    | nil =>
      exact Or.inr (Or.inr (Or.inl ⟨b1 :: t1, List.cons_ne_nil b1 t1, List.nil_append _⟩))
    | cons b2 t2 =>
      by_cases hb : b1 = b2
      · subst hb
        rcases ih t2 with h | ⟨r, hr, he⟩ | ⟨r, hr, he⟩ |
            ⟨c, p2, r2, h1, h2⟩ | ⟨c, p2, r2, h1, h2⟩
        · exact Or.inl (by rw [h])
        · exact Or.inr (Or.inl ⟨r, hr, by rw [List.cons_append, he]⟩)
        · exact Or.inr (Or.inr (Or.inl ⟨r, hr, by rw [List.cons_append, he]⟩))
        · exact Or.inr (Or.inr (Or.inr (Or.inl
            ⟨b1 :: c, p2, r2, by rw [h1, List.cons_append],
              by rw [h2, List.cons_append]⟩)))
        · exact Or.inr (Or.inr (Or.inr (Or.inr
            ⟨b1 :: c, p2, r2, by rw [h1, List.cons_append],
              by rw [h2, List.cons_append]⟩)))
      · cases b1 with
        | false =>
          cases b2 with
          | false => exact absurd rfl hb
          | true =>
            exact Or.inr (Or.inr (Or.inr (Or.inl
              ⟨[], t1, t2, rfl, rfl⟩)))
        | true =>
          cases b2 with
          | false =>
            exact Or.inr (Or.inr (Or.inr (Or.inr
              ⟨[], t2, t1, rfl, rfl⟩)))
          | true => exact absurd rfl hb

theorem sub_leaf_ext (t : BT) (q r : List Bool) (w : Nat)
    (h : sub t q = some (BT.lf w)) (hr : r ≠ []) : sub t (q ++ r) = none := by
  rw [sub_append, h]
  cases r with
  | nil => exact absurd rfl hr
  | cons bit rs => rfl

theorem leaf_paths_div (t : BT) (q1 q2 : List Bool) (w1 w2 : Nat)
    (h1 : sub t q1 = some (BT.lf w1)) (h2 : sub t q2 = some (BT.lf w2))
    (hne : q1 ≠ q2) : PathDiv q1 q2 := by
  rcases path_trichotomy q1 q2 with h | ⟨r, hr, he⟩ | ⟨r, hr, he⟩ | h | h
  · exact absurd h hne
  · rw [← he] at h2
    rw [sub_leaf_ext t q1 r w1 h1 hr] at h2
    cases h2
  · rw [← he] at h1
    rw [sub_leaf_ext t q2 r w2 h2 hr] at h1
    cases h1
  · exact Or.inl h
  · exact Or.inr h

theorem leaves_sub (q : List Bool) :
    ∀ (t u : BT), sub t q = some u → u.leaves ≤ t.leaves := by
  induction q with
  | nil =>
    intro t u h
    rw [sub_nil] at h
    cases Option.some.inj h
    exact le_refl _
  | cons bit q ih =>
    intro t u h
    cases t with
    | lf w => cases h
    | nd l r =>
      cases bit with
      | false =>
        rw [sub] at h
        exact le_trans (ih l u h) (Multiset.le_add_right _ _)
      | true =>
        rw [sub] at h
        calc u.leaves ≤ r.leaves := ih r u h
          _ ≤ l.leaves + r.leaves := by
            rw [add_comm]
            exact Multiset.le_add_right _ _

theorem mem_leaves_of_sub (t : BT) (q : List Bool) (w : Nat)
    (h : sub t q = some (BT.lf w)) : w ∈ t.leaves := by
  have := leaves_sub q t (BT.lf w) h
  exact Multiset.mem_of_le this (Multiset.mem_singleton_self w)

theorem exists_leaf_path (t : BT) (w : Nat) (h : w ∈ t.leaves) :
    ∃ q, sub t q = some (BT.lf w) := by
  induction t with
  | lf w2 =>
    rw [BT.leaves, Multiset.mem_singleton] at h
    exact ⟨[], by rw [sub_nil, h]⟩
  | nd l r ihl ihr =>
    rw [BT.leaves, Multiset.mem_add] at h
    rcases h with h | h
    · obtain ⟨q, hq⟩ := ihl h
      exact ⟨false :: q, hq⟩
    · obtain ⟨q, hq⟩ := ihr h
      exact ⟨true :: q, hq⟩

theorem two_leaf_paths_mem_erase (t : BT) :
    ∀ (q1 q2 : List Bool) (w : Nat), sub t q1 = some (BT.lf w) →
      sub t q2 = some (BT.lf w) → q1 ≠ q2 → w ∈ t.leaves.erase w := by
  induction t with
  | lf w2 =>
    intro q1 q2 w h1 h2 hne
    cases q1 with
    | cons bit q => cases h1
    | nil =>
      cases q2 with
      | cons bit q => cases h2
      | nil => exact absurd rfl hne
  | nd l r ihl ihr =>
    intro q1 q2 w h1 h2 hne
    cases q1 with
    | nil =>
      rw [sub_nil] at h1
      cases Option.some.inj h1
    | cons b1 t1 =>
      cases q2 with
      | nil =>
        rw [sub_nil] at h2
        cases Option.some.inj h2
      | cons b2 t2 =>
        cases b1 with
        | false =>
          cases b2 with
          | false =>
            simp only [sub] at h1 h2
            have hne2 : t1 ≠ t2 := fun he => hne (by rw [he])
            have hmem := ihl t1 t2 w h1 h2 hne2
            rw [BT.leaves, Multiset.erase_add_left_pos _
              (mem_leaves_of_sub l t1 w h1)]
            exact Multiset.mem_add.mpr (Or.inl hmem)
          | true =>
            simp only [sub] at h1 h2
            rw [BT.leaves, Multiset.erase_add_left_pos _
              (mem_leaves_of_sub l t1 w h1)]
            exact Multiset.mem_add.mpr (Or.inr (mem_leaves_of_sub r t2 w h2))
        | true =>
          cases b2 with
          | false =>
            simp only [sub] at h1 h2
            rw [BT.leaves, Multiset.erase_add_right_pos _
              (mem_leaves_of_sub r t1 w h1)]
            exact Multiset.mem_add.mpr (Or.inl (mem_leaves_of_sub l t2 w h2))
          | true =>
            simp only [sub] at h1 h2
            have hne2 : t1 ≠ t2 := fun he => hne (by rw [he])
            have hmem := ihr t1 t2 w h1 h2 hne2
            rw [BT.leaves, Multiset.erase_add_right_pos _
              (mem_leaves_of_sub r t1 w h1)]
            exact Multiset.mem_add.mpr (Or.inr hmem)

theorem ht_sub (q : List Bool) :
    ∀ (t u : BT), sub t q = some u → q.length + u.ht ≤ t.ht := by
  induction q with
  | nil =>
    intro t u h
    rw [sub_nil] at h
    cases Option.some.inj h
    simp
  | cons bit q ih =>
    intro t u h
    cases t with
    | lf w => cases h
    | nd l r =>
      cases bit with
      | false =>
        rw [sub] at h
        have := ih l u h
        simp only [BT.ht, List.length_cons]
        have h2 := Nat.le_max_left l.ht r.ht
        omega
      | true =>
        rw [sub] at h
        have := ih r u h
        simp only [BT.ht, List.length_cons]
        have h2 := Nat.le_max_right l.ht r.ht
        omega

theorem ht_eq_zero (t : BT) (h : t.ht = 0) : ∃ w, t = BT.lf w := by
  cases t with
  | lf w => exact ⟨w, rfl⟩
  | nd l r => rw [BT.ht] at h; omega

theorem deep_pair (t : BT) :
    1 ≤ t.ht → ∃ p x y, sub t p = some (BT.nd (BT.lf x) (BT.lf y)) ∧
      p.length + 1 = t.ht := by
  induction t with
  | lf w => intro h; rw [BT.ht] at h; omega
  | nd l r ihl ihr =>
    intro _
    rcases Nat.le_total r.ht l.ht with hle | hle
    · rcases Nat.eq_zero_or_pos l.ht with hz | hpos
      · have hrz : r.ht = 0 := by omega
        obtain ⟨x, rfl⟩ := ht_eq_zero l hz
        obtain ⟨y, rfl⟩ := ht_eq_zero r hrz
        exact ⟨[], x, y, sub_nil _, by simp [BT.ht]⟩
      · obtain ⟨p, x, y, hp, hlen⟩ := ihl hpos
        refine ⟨false :: p, x, y, hp, ?_⟩
        have := Nat.max_eq_left hle
        simp only [BT.ht, List.length_cons]
        omega
    · rcases Nat.eq_zero_or_pos r.ht with hz | hpos
      · have hlz : l.ht = 0 := by omega
        obtain ⟨x, rfl⟩ := ht_eq_zero l hlz
        obtain ⟨y, rfl⟩ := ht_eq_zero r hz
        exact ⟨[], x, y, sub_nil _, by simp [BT.ht]⟩
      · obtain ⟨p, x, y, hp, hlen⟩ := ihr hpos
        refine ⟨true :: p, x, y, hp, ?_⟩
        have := Nat.max_eq_right hle
        simp only [BT.ht, List.length_cons]
        omega

theorem node_of_subs (u va vb : BT)
    (hf : sub u [false] = some va) (ht2 : sub u [true] = some vb) :
    u = BT.nd va vb := by
  cases u with
  | lf w => cases hf
  | nd l r =>
    rw [sub, sub_nil] at hf
    rw [sub, sub_nil] at ht2
    rw [Option.some.inj hf, Option.some.inj ht2]

theorem path_avoid (t : BT) :
    ∀ (q0 : List Bool) (w0 b : Nat), sub t q0 = some (BT.lf w0) →
      b ∈ t.leaves.erase w0 → ∃ q, sub t q = some (BT.lf b) ∧ q ≠ q0 := by
  induction t with
  | lf w =>
    intro q0 w0 b h hb
    cases q0 with
    | cons bit q => cases h
    | nil =>
      rw [sub_nil] at h
      have hw : BT.lf w = BT.lf w0 := Option.some.inj h
      cases hw
      rw [BT.leaves, Multiset.erase_singleton] at hb
      cases hb
  | nd l r ihl ihr =>
    intro q0 w0 b h hb
    cases q0 with
    | nil =>
      rw [sub_nil] at h
      cases Option.some.inj h
    | cons bit q =>
      cases bit with
      | false =>
        rw [sub] at h
        have hw0 : w0 ∈ l.leaves := mem_leaves_of_sub l q w0 h
        rw [BT.leaves, Multiset.erase_add_left_pos _ hw0, Multiset.mem_add] at hb
        rcases hb with hbl | hbr
        · obtain ⟨q2, hq2, hne⟩ := ihl q w0 b h hbl
          exact ⟨false :: q2, hq2, fun he => hne (List.cons.inj he).2⟩
        · obtain ⟨q2, hq2⟩ := exists_leaf_path r b hbr
          refine ⟨true :: q2, hq2, fun he => ?_⟩
          cases (List.cons.inj he).1
      | true =>
        rw [sub] at h
        have hw0 : w0 ∈ r.leaves := mem_leaves_of_sub r q w0 h
        rw [BT.leaves, Multiset.erase_add_right_pos _ hw0, Multiset.mem_add] at hb
        rcases hb with hbl | hbr
        · obtain ⟨q2, hq2⟩ := exists_leaf_path l b hbl
          refine ⟨false :: q2, hq2, fun he => ?_⟩
          cases (List.cons.inj he).1
        · obtain ⟨q2, hq2, hne⟩ := ihr q w0 b h hbr
          exact ⟨true :: q2, hq2, fun he => hne (List.cons.inj he).2⟩

/-- Swapping a lighter leaf at a shallower position with a heavier leaf at
a deeper position preserves the leaf multiset and does not increase the
cost. -/
theorem swap_le (t : BT) (q1 q2 : List Bool) (w1 w2 : Nat)
    (h1 : sub t q1 = some (BT.lf w1)) (h2 : sub t q2 = some (BT.lf w2))
    (hd : PathDiv q1 q2) (hw : w1 ≤ w2) (hq : q1.length ≤ q2.length) :
    (repl (repl t q1 (BT.lf w2)) q2 (BT.lf w1)).leaves = t.leaves ∧
    (repl (repl t q1 (BT.lf w2)) q2 (BT.lf w1)).cost ≤ t.cost := by
  have h2' : sub (repl t q1 (BT.lf w2)) q2 = some (BT.lf w2) := by
    rw [sub_repl_div q1 q2 t (BT.lf w2) hd]
    exact h2
  constructor
  · have e1 := leaves_repl q1 t (BT.lf w1) (BT.lf w2) h1
    have e2 := leaves_repl q2 (repl t q1 (BT.lf w2)) (BT.lf w2) (BT.lf w1) h2'
    simp only [BT.leaves] at e1 e2
    have : (repl (repl t q1 (BT.lf w2)) q2 (BT.lf w1)).leaves + ({w2} : Multiset Nat) =
        t.leaves + {w2} := e2.trans e1
    exact add_right_cancel this
  · have e1 := cost_repl q1 t (BT.lf w1) (BT.lf w2) h1
    have e2 := cost_repl q2 (repl t q1 (BT.lf w2)) (BT.lf w2) (BT.lf w1) h2'
    simp only [BT.cost, BT.wt] at e1 e2
    have hcross : q1.length * w2 + q2.length * w1 ≤
        q1.length * w1 + q2.length * w2 := by
      nlinarith
    omega

/-- Replacing a leaf by a leaf does not create or destroy leaf positions:
any leaf path of the new tree was a leaf path of the old tree. -/
theorem leaf_path_repl (t : BT) (q0 : List Bool) (v w0 : Nat)
    (h0 : sub t q0 = some (BT.lf w0)) :
    ∀ q w, sub (repl t q0 (BT.lf v)) q = some (BT.lf w) →
      ∃ w2, sub t q = some (BT.lf w2) := by
  intro q w hq
  rcases path_trichotomy q q0 with he | ⟨r, hr, hext⟩ | ⟨r, hr, hext⟩ | hdv | hdv
  · exact ⟨w0, by rw [he]; exact h0⟩
  · exfalso
    have hs := sub_repl_self q0 t (BT.lf w0) (BT.lf v) h0
    rw [← hext] at hq hs
    rw [sub_append, hq] at hs
    cases r with
    | nil => exact hr rfl
    | cons bit rs => cases hs
  · exfalso
    rw [← hext, sub_append, sub_repl_self q0 t (BT.lf w0) (BT.lf v) h0] at hq
    cases r with
    | nil => exact hr rfl
    | cons bit rs => cases hq
  · rw [sub_repl_div q0 q t (BT.lf v) (Or.inr hdv)] at hq
    exact ⟨w, hq⟩
  · rw [sub_repl_div q0 q t (BT.lf v) (Or.inl hdv)] at hq
    exact ⟨w, hq⟩

theorem append_false_ne_true (p : List Bool) : p ++ [false] ≠ p ++ [true] := by
  intro he
  have := List.append_cancel_left he
  cases this

theorem pathDiv_false_true (p : List Bool) :
    PathDiv (p ++ [false]) (p ++ [true]) :=
  Or.inl ⟨p, [], [], rfl, rfl⟩

/-- Exchange argument: from any tree `U` whose leaves contain the two
minima `a` and `b` of the leaf multiset, a tree for the multiset with `a`
and `b` merged into `a + b` can be produced whose cost is at least `a + b`
below the cost of `U`. -/
theorem key_exchange (U : BT) (a b : Nat)
    (ha : a ∈ U.leaves) (hamin : ∀ c ∈ U.leaves, a ≤ c)
    (hb : b ∈ U.leaves.erase a) (hbmin : ∀ c ∈ U.leaves.erase a, b ≤ c) :
    ∃ V : BT, V.leaves = (U.leaves.erase a).erase b + {a + b} ∧
      V.cost + a + b ≤ U.cost := by
  have hht : 1 ≤ U.ht := by
    cases U with
    | lf w =>
      exfalso
      rw [BT.leaves, Multiset.mem_singleton] at ha
      subst ha
      rw [BT.leaves, Multiset.erase_singleton] at hb
      exact absurd hb (Multiset.not_mem_zero b)
    | nd l r => rw [BT.ht]; omega
  obtain ⟨p, x, y, hp, hplen⟩ := deep_pair U hht
  have hp0 : sub U (p ++ [false]) = some (BT.lf x) := by
    rw [sub_append, hp]; rfl
  have hp1 : sub U (p ++ [true]) = some (BT.lf y) := by
    rw [sub_append, hp]; rfl
  have hDB : ∀ q w, sub U q = some (BT.lf w) → q.length ≤ p.length + 1 := by
    intro q w hq
    have h1 := ht_sub q U (BT.lf w) hq
    simp only [BT.ht] at h1
    omega
  have hax : a ≤ x := hamin x (mem_leaves_of_sub U _ x hp0)
  have step1 : ∃ U1 y2, sub U1 (p ++ [false]) = some (BT.lf a) ∧
      sub U1 (p ++ [true]) = some (BT.lf y2) ∧
      U1.leaves = U.leaves ∧ U1.cost ≤ U.cost ∧
      (∀ q w, sub U1 q = some (BT.lf w) → q.length ≤ p.length + 1) := by
    by_cases hxa : x = a
    · exact ⟨U, y, by rw [hp0, hxa], hp1, rfl, Nat.le_refl _, hDB⟩
    · by_cases hya : y = a
      · have hdv : PathDiv (p ++ [true]) (p ++ [false]) :=
          Or.inr ⟨p, [], [], rfl, rfl⟩
        have hyx : y ≤ x := by rw [hya]; exact hax
        have hsw := swap_le U (p ++ [true]) (p ++ [false]) y x hp1 hp0 hdv hyx
          (by simp)
        refine ⟨repl (repl U (p ++ [true]) (BT.lf x)) (p ++ [false]) (BT.lf y),
          x, ?_, ?_, hsw.1, hsw.2, ?_⟩
        · have hin : sub (repl U (p ++ [true]) (BT.lf x)) (p ++ [false]) =
              some (BT.lf x) := by
            rw [sub_repl_div _ _ _ _ hdv]
            exact hp0
          rw [← hya]
          exact sub_repl_self _ _ _ _ hin
        · rw [sub_repl_div _ _ _ _ (pathDiv_false_true p)]
          exact sub_repl_self _ _ _ _ hp1
        · intro q w hq
          have hin : sub (repl U (p ++ [true]) (BT.lf x)) (p ++ [false]) =
              some (BT.lf x) := by
            rw [sub_repl_div _ _ _ _ hdv]
            exact hp0
          obtain ⟨w2, hq2⟩ := leaf_path_repl _ (p ++ [false]) y x hin q w hq
          obtain ⟨w3, hq3⟩ := leaf_path_repl U (p ++ [true]) x y hp1 q w2 hq2
          exact hDB q w3 hq3
      · obtain ⟨qa, hqa⟩ := exists_leaf_path U a ha
        have hqa0 : qa ≠ p ++ [false] := by
          intro he
          rw [he, hp0] at hqa
          exact hxa (BT.lf.inj (Option.some.inj hqa))
        have hqa1 : qa ≠ p ++ [true] := by
          intro he
          rw [he, hp1] at hqa
          exact hya (BT.lf.inj (Option.some.inj hqa))
        have hdv0 : PathDiv qa (p ++ [false]) :=
          leaf_paths_div U qa (p ++ [false]) a x hqa hp0 hqa0
        have hdv1 : PathDiv qa (p ++ [true]) :=
          leaf_paths_div U qa (p ++ [true]) a y hqa hp1 hqa1
        have hqalen : qa.length ≤ (p ++ [false]).length := by
          have := hDB qa a hqa
          simp only [List.length_append, List.length_cons, List.length_nil]
          omega
        have hsw := swap_le U qa (p ++ [false]) a x hqa hp0 hdv0 hax hqalen
        refine ⟨repl (repl U qa (BT.lf x)) (p ++ [false]) (BT.lf a), y,
          ?_, ?_, hsw.1, hsw.2, ?_⟩
        · have hin : sub (repl U qa (BT.lf x)) (p ++ [false]) = some (BT.lf x) := by
            rw [sub_repl_div qa _ _ _ hdv0]
            exact hp0
          exact sub_repl_self _ _ _ _ hin
        · rw [sub_repl_div _ _ _ _ (pathDiv_false_true p)]
          rw [sub_repl_div qa _ _ _ hdv1]
          exact hp1
        · intro q w hq
          have hin : sub (repl U qa (BT.lf x)) (p ++ [false]) = some (BT.lf x) := by
            rw [sub_repl_div qa _ _ _ hdv0]
            exact hp0
          obtain ⟨w2, hq2⟩ := leaf_path_repl _ (p ++ [false]) a x hin q w hq
          obtain ⟨w3, hq3⟩ := leaf_path_repl U qa x a hqa q w2 hq2
          exact hDB q w3 hq3
  obtain ⟨U1, y2, hU1p0, hU1p1, hU1lv, hU1cost, hU1DB⟩ := step1
  have hbU : b ∈ U.leaves := Multiset.mem_of_mem_erase hb
  have hab : a ≤ b := hamin b hbU
  have step2 : ∃ U2, sub U2 (p ++ [false]) = some (BT.lf a) ∧
      sub U2 (p ++ [true]) = some (BT.lf b) ∧
      U2.leaves = U.leaves ∧ U2.cost ≤ U.cost := by
    by_cases hyb : y2 = b
    · exact ⟨U1, hU1p0, by rw [hU1p1, hyb], hU1lv, hU1cost⟩
    · have hbU1 : b ∈ U1.leaves.erase a := by rw [hU1lv]; exact hb
      obtain ⟨qb, hqb, hqbne0⟩ := path_avoid U1 (p ++ [false]) a b hU1p0 hbU1
      have hqbne1 : qb ≠ p ++ [true] := by
        intro he
        rw [he, hU1p1] at hqb
        exact hyb (BT.lf.inj (Option.some.inj hqb))
      have hbley2 : b ≤ y2 := by
        by_cases hy2 : y2 = a
        · exfalso
          have haerase : a ∈ U1.leaves.erase a :=
            two_leaf_paths_mem_erase U1 (p ++ [false]) (p ++ [true]) a hU1p0
              (by rw [hU1p1, hy2]) (append_false_ne_true p)
          rw [hU1lv] at haerase
          have h1 : b ≤ a := hbmin a haerase
          exact hyb (hy2.trans (Nat.le_antisymm hab h1))
        · apply hbmin
          have hy2U : y2 ∈ U.leaves := by
            rw [← hU1lv]
            exact mem_leaves_of_sub U1 _ y2 hU1p1
          exact (Multiset.mem_erase_of_ne hy2).mpr hy2U
      have hdvb1 : PathDiv qb (p ++ [true]) :=
        leaf_paths_div U1 qb (p ++ [true]) b y2 hqb hU1p1 hqbne1
      have hdvb0 : PathDiv qb (p ++ [false]) :=
        leaf_paths_div U1 qb (p ++ [false]) b a hqb hU1p0 hqbne0
      have hqblen : qb.length ≤ (p ++ [true]).length := by
        have := hU1DB qb b hqb
        simp only [List.length_append, List.length_cons, List.length_nil]
        omega
      have hsw2 := swap_le U1 qb (p ++ [true]) b y2 hqb hU1p1 hdvb1 hbley2 hqblen
      refine ⟨repl (repl U1 qb (BT.lf y2)) (p ++ [true]) (BT.lf b), ?_, ?_,
        hsw2.1.trans hU1lv, le_trans hsw2.2 hU1cost⟩
      · rw [sub_repl_div _ _ _ _ (Or.inr ⟨p, [], [], rfl, rfl⟩ : PathDiv (p ++ [true]) (p ++ [false]))]
        rw [sub_repl_div qb _ _ _ hdvb0]
        exact hU1p0
      · have hin : sub (repl U1 qb (BT.lf y2)) (p ++ [true]) = some (BT.lf y2) := by
          rw [sub_repl_div qb _ _ _ hdvb1]
          exact hU1p1
        exact sub_repl_self _ _ _ _ hin
  obtain ⟨U2, hU2p0, hU2p1, hU2lv, hU2cost⟩ := step2
  have hsubp : sub U2 p = some (BT.nd (BT.lf a) (BT.lf b)) := by
    rw [sub_append] at hU2p0 hU2p1
    cases hu : sub U2 p with
    | none => rw [hu] at hU2p0; cases hU2p0
    | some u =>
      rw [hu, Option.some_bind] at hU2p0 hU2p1
      rw [node_of_subs u (BT.lf a) (BT.lf b) hU2p0 hU2p1]
  refine ⟨repl U2 p (BT.lf (a + b)), ?_, ?_⟩
  · have e := leaves_repl p U2 (BT.nd (BT.lf a) (BT.lf b)) (BT.lf (a + b)) hsubp
    simp only [BT.leaves] at e
    rw [hU2lv] at e
    have hU : U.leaves = {a} + ({b} + (U.leaves.erase a).erase b) := by
      rw [Multiset.singleton_add, Multiset.singleton_add,
        Multiset.cons_erase hb, Multiset.cons_erase ha]
    rw [hU] at e
    have e2 : (repl U2 p (BT.lf (a + b))).leaves + ({a} + {b}) =
        ((U.leaves.erase a).erase b + {a + b}) + ({a} + {b}) := by
      rw [e]
      abel
    exact add_right_cancel e2
  · have e := cost_repl p U2 (BT.nd (BT.lf a) (BT.lf b)) (BT.lf (a + b)) hsubp
    simp only [BT.cost, BT.wt] at e
    omega

/-! ## Substituting a tree for a leaf along a run -/

theorem Sub1_wt {w : Nat} {s t t2 : BT} (hs : Sub1 w s t t2) (hws : s.wt = w) :
    t2.wt = t.wt := by
  obtain ⟨q, hq, rfl⟩ := hs
  have h := wt_repl q t (BT.lf w) s hq
  simp only [BT.wt] at h
  omega

theorem Sub1_cost {w : Nat} {s t t2 : BT} (hs : Sub1 w s t t2) (hws : s.wt = w) :
    t2.cost = t.cost + s.cost := by
  obtain ⟨q, hq, rfl⟩ := hs
  have h := cost_repl q t (BT.lf w) s hq
  simp only [BT.cost, BT.wt] at h
  rw [hws] at h
  generalize q.length * w = m at h
  omega

theorem Sub1_leaves {w : Nat} {s t t2 : BT} (hs : Sub1 w s t t2) :
    t2.leaves + {w} = t.leaves + s.leaves := by
  obtain ⟨q, hq, rfl⟩ := hs
  have h := leaves_repl q t (BT.lf w) s hq
  simp only [BT.leaves] at h
  exact h

/-- Downgrade lemma: a run from a forest in which the tree `s` replaces a
leaf of the same total weight `w` induces a run from the leafy forest, and
the final trees again differ by the same substitution. -/
theorem huffRun_subst {F : Multiset BT} {T : BT} (h : HuffRun F T) :
    ∀ (w : Nat) (s : BT), s.wt = w → ∀ Fs, SubF w s Fs F →
      ∃ T2, HuffRun Fs T2 ∧ Sub1 w s T2 T := by
  induction h with
  | single t =>
    intro w s hws Fs hsub
    obtain ⟨t0, t2, G, hFs, hs1, hF⟩ := hsub
    obtain ⟨ht2, hG⟩ := (Multiset.singleton_eq_cons_iff G).mp hF
    refine ⟨t0, ?_, ?_⟩
    · rw [hFs, hG, Multiset.cons_zero]
      exact HuffRun.single t0
    · rw [ht2]
      exact hs1
  | @step F F' T htm hrun ih =>
    intro w s hws Fs hsub
    obtain ⟨t0, t2, G, hFs, hs1, hF⟩ := hsub
    obtain ⟨u1, u2, G0, hFd, hmin1, hmin2, hF1⟩ := htm
    have hwt0 : t2.wt = t0.wt := Sub1_wt hs1 hws
    have hkey : t2 ::ₘ G = u1 ::ₘ (u2 ::ₘ G0) := hF.symm.trans hFd
    rcases Multiset.cons_eq_cons.mp hkey with ⟨he, hG⟩ | ⟨hne, cs, hG, hG2⟩
    · -- the substituted tree is the first minimum
      have htm2 : TwoMin Fs (BT.nd t0 u2 ::ₘ G0) := by
        refine ⟨t0, u2, G0, by rw [hFs, hG], ?_, hmin2, rfl⟩
        intro u hu
        have h2 := hmin1 u hu
        rw [← he] at h2
        omega
      have hsub2 : SubF w s (BT.nd t0 u2 ::ₘ G0) F' := by
        refine ⟨BT.nd t0 u2, BT.nd t2 u2, G0, rfl, ?_, by rw [hF1, he]⟩
        obtain ⟨q, hq, hrepl⟩ := hs1
        refine ⟨false :: q, ?_, ?_⟩
        · rw [sub]; exact hq
        · rw [repl, ← hrepl]
      obtain ⟨T2, hrun2, hsubT⟩ := ih w s hws _ hsub2
      exact ⟨T2, HuffRun.step htm2 hrun2, hsubT⟩
    · rcases Multiset.cons_eq_cons.mp hG2 with ⟨he2, hG0⟩ | ⟨hne2, ds, hG0, hcs⟩
      · -- the substituted tree is the second minimum
        have htm2 : TwoMin Fs (BT.nd u1 t0 ::ₘ G0) := by
          refine ⟨u1, t0, G0, ?_, ?_, ?_, rfl⟩
          · rw [hFs, hG, ← hG0]
            exact Multiset.cons_swap t0 u1 G0
          · intro u hu
            rcases Multiset.mem_cons.mp hu with h | h
            · rw [h]
              have h2 := hmin1 u2 (Multiset.mem_cons_self u2 G0)
              rw [he2] at h2
              omega
            · exact hmin1 u (Multiset.mem_cons_of_mem h)
          · intro u hu
            have h2 := hmin2 u hu
            rw [he2] at h2
            omega
        have hsub2 : SubF w s (BT.nd u1 t0 ::ₘ G0) F' := by
          refine ⟨BT.nd u1 t0, BT.nd u1 t2, G0, rfl, ?_, by rw [hF1, he2]⟩
          obtain ⟨q, hq, hrepl⟩ := hs1
          refine ⟨true :: q, ?_, ?_⟩
          · rw [sub]; exact hq
          · rw [repl, ← hrepl]
        obtain ⟨T2, hrun2, hsubT⟩ := ih w s hws _ hsub2
        exact ⟨T2, HuffRun.step htm2 hrun2, hsubT⟩
      · -- the substituted tree is neither minimum
        have ht2G0 : t2 ∈ G0 := by
          rw [hG0]; exact Multiset.mem_cons_self t2 ds
        have htm2 : TwoMin Fs (BT.nd u1 u2 ::ₘ t0 ::ₘ ds) := by
          refine ⟨u1, u2, t0 ::ₘ ds, ?_, ?_, ?_, rfl⟩
          · rw [hFs, hG, hcs, Multiset.cons_swap t0 u1, Multiset.cons_swap t0 u2]
          · intro u hu
            rcases Multiset.mem_cons.mp hu with h | h
            · rw [h]
              exact hmin1 u2 (Multiset.mem_cons_self u2 G0)
            · rcases Multiset.mem_cons.mp h with h2 | h2
              · rw [h2]
                have h3 := hmin1 t2 (Multiset.mem_cons_of_mem ht2G0)
                omega
              · refine hmin1 u (Multiset.mem_cons_of_mem ?_)
                rw [hG0]
                exact Multiset.mem_cons_of_mem h2
          · intro u hu
            rcases Multiset.mem_cons.mp hu with h | h
            · rw [h]
              have h3 := hmin2 t2 ht2G0
              omega
            · refine hmin2 u ?_
              rw [hG0]
              exact Multiset.mem_cons_of_mem h
        have hsub2 : SubF w s (BT.nd u1 u2 ::ₘ t0 ::ₘ ds) F' := by
          refine ⟨t0, t2, BT.nd u1 u2 ::ₘ ds, Multiset.cons_swap _ _ _, hs1, ?_⟩
          rw [hF1, hG0]
          exact Multiset.cons_swap _ _ _
        obtain ⟨T2, hrun2, hsubT⟩ := ih w s hws _ hsub2
        exact ⟨T2, HuffRun.step htm2 hrun2, hsubT⟩

/-- A run either is already a single tree or starts with a merge. -/
theorem huffRun_cases {F : Multiset BT} {T : BT} (h : HuffRun F T) :
    F = {T} ∨ ∃ F2, TwoMin F F2 ∧ HuffRun F2 T := by
  cases h with
  | single t => exact Or.inl rfl
  | step htm hrun => exact Or.inr ⟨_, htm, hrun⟩

/-- Optimality of abstract Huffman runs: the final tree of a run started
from the leaf forest of `M` has minimal cost among all full binary trees
with leaf multiset `M`. -/
theorem huffRun_opt (n : Nat) : ∀ (M : Multiset Nat) (T : BT),
    Multiset.card M = n → HuffRun (M.map BT.lf) T →
    ∀ U : BT, U.leaves = M → T.cost ≤ U.cost := by
  induction n using Nat.strong_induction_on with
  | _ n ih =>
    intro M T hcard hrun U hU
    rcases huffRun_cases hrun with hF | ⟨F2, htm, hrun2⟩
    · rw [← Multiset.cons_zero T] at hF
      obtain ⟨c, hcM, hfc, hrest0⟩ := (Multiset.map_eq_cons BT.lf M 0 T).mpr hF
      rw [← hfc]
      exact Nat.zero_le _
    · obtain ⟨t1, t2, G, hF, hmin1, hmin2, hF2⟩ := htm
      obtain ⟨a, haM, hfa, hrest⟩ := (Multiset.map_eq_cons BT.lf M (t2 ::ₘ G) t1).mpr hF
      obtain ⟨b, hbM, hfb, hrest2⟩ :=
        (Multiset.map_eq_cons BT.lf (M.erase a) G t2).mpr hrest
      have hc1 := Multiset.card_erase_add_one haM
      have hc2 := Multiset.card_erase_add_one hbM
      rw [hcard] at hc1
      have hamin : ∀ c ∈ M, a ≤ c := by
        intro c hc
        by_cases hca : c = a
        · omega
        · have hc2m : c ∈ M.erase a := (Multiset.mem_erase_of_ne hca).mpr hc
          have hmem : BT.lf c ∈ t2 ::ₘ G := by
            rw [← hrest]
            exact Multiset.mem_map_of_mem BT.lf hc2m
          have h3 := hmin1 _ hmem
          rw [← hfa] at h3
          simp only [BT.wt] at h3
          exact h3
      have hbmin : ∀ c ∈ M.erase a, b ≤ c := by
        intro c hc
        by_cases hcb : c = b
        · omega
        · have hc2m : c ∈ (M.erase a).erase b := (Multiset.mem_erase_of_ne hcb).mpr hc
          have hmem : BT.lf c ∈ G := by
            rw [← hrest2]
            exact Multiset.mem_map_of_mem BT.lf hc2m
          have h3 := hmin2 _ hmem
          rw [← hfb] at h3
          simp only [BT.wt] at h3
          exact h3
      have hsubF : SubF (a + b) (BT.nd (BT.lf a) (BT.lf b))
          (((a + b) ::ₘ (M.erase a).erase b).map BT.lf) F2 := by
        refine ⟨BT.lf (a + b), BT.nd (BT.lf a) (BT.lf b), G, ?_, ?_, ?_⟩
        · rw [Multiset.map_cons, hrest2]
        · exact ⟨[], by rw [sub_nil], by rw [repl_nil]⟩
        · rw [hF2, ← hfa, ← hfb]
      have hws : (BT.nd (BT.lf a) (BT.lf b)).wt = a + b := rfl
      obtain ⟨T2, hrunT2, hsubT⟩ := huffRun_subst hrun2 (a + b) _ hws _ hsubF
      have hcost : T.cost = T2.cost + (a + b) := by
        have h := Sub1_cost hsubT hws
        simp only [BT.cost, BT.wt] at h
        omega
      obtain ⟨V, hVlv, hVcost⟩ := key_exchange U a b (by rw [hU]; exact haM)
        (by rw [hU]; exact hamin) (by rw [hU]; exact hbM) (by rw [hU]; exact hbmin)
      have hV' : V.leaves = (a + b) ::ₘ (M.erase a).erase b := by
        rw [hVlv, hU, add_comm, Multiset.singleton_add]
      have hcard' : Multiset.card ((a + b) ::ₘ (M.erase a).erase b) = n - 1 := by
        simp only [Multiset.card_cons]
        omega
      have hT2 := ih (n - 1) (by omega) ((a + b) ::ₘ (M.erase a).erase b) T2
        hcard' hrunT2 V hV'
      omega

/-! ## C2: the built tree is weight-optimal -/

theorem wsdAux_eq (t : BT) : ∀ d, wsdAux t d = t.cost + t.wt * d := by
  induction t with
  | lf w => intro d; simp only [wsdAux, BT.cost, BT.wt]; ring
  | nd l r ihl ihr =>
    intro d
    simp only [wsdAux, BT.cost, BT.wt, ihl, ihr]
    ring

/-- The weighted sum of leaf depths equals the sum over internal nodes of
the total leaf weight below that node. -/
theorem wsd_eq_cost (t : BT) : t.wsd = t.cost := by
  rw [BT.wsd, wsdAux_eq]
  simp

/-- C2: for every frequency table with `n ≥ 1` entries (and total weight
below `u64::MAX`, which `find_min`'s `< u64::MAX` bound requires), the
tree returned by `HuffmanTree::build` is weight-optimal in the Huffman
sense: no full binary tree over the same multiset of leaf weights has a
strictly lower weighted sum of leaf depths (weight times root-to-leaf
edge count, summed over leaves). -/
theorem build_weight_optimal (table : List (Char × Nat)) (hn : table ≠ [])
    (hW : totalW table < U64MAX) :
    ∃ p, HuffmanTree.build table = some (p, 2 * table.length - 2) ∧
      ∀ U : BT,
        U.leaves = (toBT (2 * table.length - 1) p (2 * table.length - 2)).leaves →
        (toBT (2 * table.length - 1) p (2 * table.length - 2)).wsd ≤ U.wsd := by
  have hn1 : 1 ≤ table.length := List.length_pos.mpr hn
  obtain ⟨p, hp, hloop, inv⟩ := build_some table hn1 hW
  refine ⟨p, hp, ?_⟩
  intro U hUlv
  rw [wsd_eq_cost, wsd_eq_cost]
  have hrun := build_run table hn1 hW p hloop
  have hforest : ((table.map (fun cw => BT.lf cw.2) : List BT) : Multiset BT) =
      ((table.map Prod.snd : List Nat) : Multiset Nat).map BT.lf := by
    simp only [Multiset.map_coe, List.map_map]
    rfl
  rw [hforest] at hrun
  have hlv := final_tree_leaves table hn1 hW p hloop inv
  exact huffRun_opt (Multiset.card ((table.map Prod.snd : List Nat) : Multiset Nat))
    _ _ rfl hrun U (by rw [hUlv, hlv])

theorem build_weight_optimal_witness :
    (([(('a' : Char), 3), ('b', 2)] : List (Char × Nat)) ≠ [] ∧
      totalW [('a', 3), ('b', 2)] < U64MAX) ∧
    ∃ p, HuffmanTree.build [('a', 3), ('b', 2)] =
        some (p, 2 * ([(('a' : Char), 3), ('b', 2)] : List (Char × Nat)).length - 2) ∧
      ∀ U : BT,
        U.leaves =
          (toBT (2 * ([(('a' : Char), 3), ('b', 2)] : List (Char × Nat)).length - 1) p
            (2 * ([(('a' : Char), 3), ('b', 2)] : List (Char × Nat)).length - 2)).leaves →
        (toBT (2 * ([(('a' : Char), 3), ('b', 2)] : List (Char × Nat)).length - 1) p
            (2 * ([(('a' : Char), 3), ('b', 2)] : List (Char × Nat)).length - 2)).wsd ≤
          U.wsd :=
  ⟨⟨by decide, by decide⟩,
    build_weight_optimal [('a', 3), ('b', 2)] (by decide) (by decide)⟩
